import Mathlib

/-!
# A verified model of the dvc YAML serialization engine

The repository ships a YAML engine (the module dvc/utils/serialize/_yaml.py)
that exposes two parsing modes over one textual format: a plain read
(parse_yaml) and an order-preserving editable parse (parse_yaml_for_update),
together with a serializer (dumps_yaml / dump_yaml), byte-level decoding
under a declared encoding (default utf-8), and a scoped read-modify-write
session (modify_yaml).

The implementation module itself is not part of the source tree available
here (only its unit tests are), so every definition below is modelled from
the specification of the engine: text is a list of characters, bytes are
lists of naturals below 256, documents are trees of scalars, sequences and
insertion-ordered mappings, and the parser is a line-based block parser
with a separate duplicate-key validation pass, following the data flow
decode -> parse -> project / edit -> serialize.  The modelled grammar
covers the subset the specification constrains: block mappings and
sequences, plain and single-quoted scalars, explicit forced-string tags,
and flow-empty containers; anchors, comments and block scalars are outside
the modelled subset, as the non-goals of the specification permit.

All definitions are structurally recursive, so concrete runs of the engine
reduce inside the kernel.
-/

namespace DvcYaml

/-- Text is a sequence of characters (the decoded form of a source file). -/
abbrev Chars := List Char

/-- Raw bytes as read from disk, each in the range 0..255. -/
abbrev Bytes := List Nat

/-- Modelled from the spec: the plain value model produced by the Value
Projector of the missing module dvc/utils/serialize/_yaml.py — mappings
(insertion-ordered association lists), sequences, and scalars of type
string, integer, float, boolean or null.  A float scalar is kept in its
decimal-literal form (sign, integer part, list of fractional digits), so
that serialization emits its canonical literal. -/
inductive PValue where
  | null : PValue
  | bool (b : Bool) : PValue
  | int (n : Int) : PValue
  | float (neg : Bool) (ip : Nat) (frac : List Nat) : PValue
  | str (s : Chars) : PValue
  | seq (xs : List PValue) : PValue
  | map (kvs : List (Chars × PValue)) : PValue
  deriving Repr

mutual

/-- Boolean equality on values (structural, kernel-computable). -/
def PValue.beq : PValue → PValue → Bool
  | .null, .null => true
  | .bool a, .bool b => a == b
  | .int a, .int b => a == b
  | .float n1 i1 f1, .float n2 i2 f2 => n1 == n2 && i1 == i2 && f1 == f2
  | .str a, .str b => a == b
  | .seq xs, .seq ys => PValue.beqSeq xs ys
  | .map xs, .map ys => PValue.beqMap xs ys
  | _, _ => false

/-- Boolean equality on value lists. -/
def PValue.beqSeq : List PValue → List PValue → Bool
  | [], [] => true
  | x :: xs, y :: ys => PValue.beq x y && PValue.beqSeq xs ys
  | _, _ => false

/-- Boolean equality on key-value lists. -/
def PValue.beqMap : List (Chars × PValue) → List (Chars × PValue) → Bool
  | [], [] => true
  | (k, x) :: xs, (l, y) :: ys => k == l && PValue.beq x y && PValue.beqMap xs ys
  | _, _ => false

end

mutual

theorem PValue.beq_iff : ∀ a b : PValue, PValue.beq a b = true ↔ a = b
  | .null, b => by cases b <;> simp [PValue.beq]
  | .bool a, b => by cases b <;> simp [PValue.beq]
  | .int a, b => by cases b <;> simp [PValue.beq]
  | .float n1 i1 f1, b => by cases b <;> simp [PValue.beq, and_assoc]
  | .str a, b => by cases b <;> simp [PValue.beq]
  | .seq xs, b => by cases b <;> simp [PValue.beq, PValue.beqSeq_iff xs _]
  | .map xs, b => by cases b <;> simp [PValue.beq, PValue.beqMap_iff xs _]

theorem PValue.beqSeq_iff : ∀ a b : List PValue, PValue.beqSeq a b = true ↔ a = b
  | [], b => by cases b <;> simp [PValue.beqSeq]
  | x :: xs, b => by
    cases b <;> simp [PValue.beqSeq, PValue.beq_iff x _, PValue.beqSeq_iff xs _]

theorem PValue.beqMap_iff :
    ∀ a b : List (Chars × PValue), PValue.beqMap a b = true ↔ a = b
  | [], b => by cases b <;> simp [PValue.beqMap]
  | (k, x) :: xs, b => by
    cases b with
    | nil => simp [PValue.beqMap]
    | cons hd tl =>
      obtain ⟨l, y⟩ := hd
      simp [PValue.beqMap, PValue.beq_iff x y, PValue.beqMap_iff xs tl]

end

instance : DecidableEq PValue := fun a b =>
  decidable_of_iff (PValue.beq a b = true) (PValue.beq_iff a b)

/-! ## Decimal numerals

The serializer prints integers and floats in canonical decimal form; the
parser reads them back.  Printing uses an explicit fuel argument so the
definition is structurally recursive. -/

/-- The character for a single decimal digit. -/
def digitChar (d : Nat) : Char := Char.ofNat (48 + d)

/-- Numeric value of a digit character. -/
def charToDigit (c : Char) : Nat := c.toNat - 48

/-- Whether a character is a decimal digit. -/
def isDigitChar (c : Char) : Bool := 48 ≤ c.toNat && c.toNat ≤ 57

/-- Decimal printing worker, structurally recursive on its fuel. -/
def natToCharsAux : Nat → Nat → Chars
  | 0, _ => []
  | fuel + 1, n =>
    if n < 10 then [digitChar n]
    else natToCharsAux fuel (n / 10) ++ [digitChar (n % 10)]

/-- The decimal numeral of a natural number, most significant digit first. -/
def natToChars (n : Nat) : Chars := natToCharsAux (n + 1) n

/-- Reads a digit string back into a natural number (left fold). -/
def charsToNat (cs : Chars) : Nat :=
  cs.foldl (fun acc c => 10 * acc + charToDigit c) 0

theorem charToDigit_digitChar {d : Nat} (h : d < 10) :
    charToDigit (digitChar d) = d := by
  interval_cases d <;> decide

theorem isDigitChar_digitChar {d : Nat} (h : d < 10) :
    isDigitChar (digitChar d) = true := by
  interval_cases d <;> decide

theorem charsToNat_append (cs ds : Chars) :
    charsToNat (cs ++ ds) =
      ds.foldl (fun acc c => 10 * acc + charToDigit c) (charsToNat cs) := by
  simp [charsToNat, List.foldl_append]

theorem natToCharsAux_spec {fuel n : Nat} (h : n < fuel) :
    charsToNat (natToCharsAux fuel n) = n := by
  induction fuel generalizing n with
  | zero => omega
  | succ fuel ih =>
    rw [natToCharsAux]
    by_cases h10 : n < 10
    · simp [h10, charsToNat, charToDigit_digitChar h10]
    · rw [if_neg h10, charsToNat_append, ih (by omega)]
      simp [charToDigit_digitChar (Nat.mod_lt n (by norm_num))]
      omega

theorem charsToNat_natToChars (n : Nat) : charsToNat (natToChars n) = n :=
  natToCharsAux_spec (Nat.lt_succ_self n)

theorem natToCharsAux_ne_nil {fuel n : Nat} (h : n < fuel) :
    natToCharsAux fuel n ≠ [] := by
  cases fuel with
  | zero => omega
  | succ fuel =>
    rw [natToCharsAux]
    by_cases h10 : n < 10 <;> simp [h10]

theorem natToChars_ne_nil (n : Nat) : natToChars n ≠ [] :=
  natToCharsAux_ne_nil (Nat.lt_succ_self n)

theorem natToCharsAux_all_digits {fuel n : Nat} (h : n < fuel) :
    ∀ c ∈ natToCharsAux fuel n, isDigitChar c = true := by
  induction fuel generalizing n with
  | zero => omega
  | succ fuel ih =>
    rw [natToCharsAux]
    by_cases h10 : n < 10
    · simp [h10, isDigitChar_digitChar h10]
    · rw [if_neg h10]
      intro c hc
      rcases List.mem_append.mp hc with h1 | h2
      · exact ih (by omega) c h1
      · rcases List.mem_singleton.mp h2 with rfl
        exact isDigitChar_digitChar (Nat.mod_lt n (by norm_num))

theorem natToChars_all_digits (n : Nat) :
    ∀ c ∈ natToChars n, isDigitChar c = true :=
  natToCharsAux_all_digits (Nat.lt_succ_self n)

/-- The head of a printed numeral is a decimal digit. -/
theorem natToChars_head_digit (n : Nat) :
    ∃ c rest, natToChars n = c :: rest ∧ isDigitChar c = true := by
  rcases hc : natToChars n with _ | ⟨c, rest⟩
  · exact absurd hc (natToChars_ne_nil n)
  · exact ⟨c, rest, rfl, natToChars_all_digits n c (hc ▸ List.mem_cons_self c rest)⟩

/-! ## Scalar tokens

A scalar occupies a single token: a word literal (null, true, false, a
flow-empty container), a decimal integer or float literal, a single-quoted
string, a forced-string tagged scalar, or a plain string. -/

/-- Strips one leading minus sign, reporting whether it was present. -/
def stripNeg (s : Chars) : Bool × Chars :=
  match s with
  | [] => (false, [])
  | c :: r => if c = '-' then (true, r) else (false, c :: r)

/-- Splits at the first dot, if any. -/
def splitDot : Chars → Option (Chars × Chars)
  | [] => none
  | c :: cs =>
    if c = '.' then some ([], cs)
    else (splitDot cs).map (fun p => (c :: p.1, p.2))

/-- Whether a token is a decimal integer literal. -/
def isIntTok (s : Chars) : Bool :=
  let core := (stripNeg s).2
  !core.isEmpty && core.all isDigitChar

/-- Integer value of an integer literal token. -/
def parseIntTok (s : Chars) : Int :=
  let (neg, core) := stripNeg s
  if neg then -(charsToNat core : Int) else (charsToNat core : Int)

/-- Whether a token is a decimal float literal (digits, dot, digits). -/
def isFloatTok (s : Chars) : Bool :=
  let core := (stripNeg s).2
  match splitDot core with
  | some (i, f) => !i.isEmpty && i.all isDigitChar && f.all isDigitChar
  | none => false

/-- Float value of a float literal token. -/
def parseFloatTok (s : Chars) : PValue :=
  let (neg, core) := stripNeg s
  match splitDot core with
  | some (i, f) => .float neg (charsToNat i) (f.map charToDigit)
  | none => .null

/-- Doubles every single quote, the escaping used inside quoted scalars. -/
def escQ : Chars → Chars
  | [] => []
  | c :: r => if c = '\'' then '\'' :: '\'' :: escQ r else c :: escQ r

/-- Reads the body of a single-quoted token up to its closing quote,
undoing the doubled-quote escaping.  Returns none if the token is not a
well-formed quoted scalar. -/
def unquoteBody : Chars → Option Chars
  | [] => none
  | [c] => if c = '\'' then some [] else none
  | c :: c2 :: rest =>
    if c = '\'' then
      if c2 = '\'' then (unquoteBody rest).map ('\'' :: ·) else none
    else (unquoteBody (c2 :: rest)).map (c :: ·)

/-- Wraps a string in single quotes, doubling interior quotes. -/
def quoteStr (s : Chars) : Chars := '\'' :: (escQ s ++ ['\''])

/-- The characters allowed in a plain (unquoted) scalar or key. -/
def safeChar (c : Char) : Bool :=
  c.isAlpha || isDigitChar c || c = '_' || c = '-' || c = '.' || c = ' ' || c = '/'

/-- Whether a token would be read back as a typed literal rather than a
string. -/
def looksLit (s : Chars) : Bool :=
  s == "null".data || s == "~".data || s == "true".data || s == "false".data ||
  s == "{}".data || s == "[]".data || isIntTok s || isFloatTok s

/-- Whether a string may be emitted as a plain scalar: made of safe
characters, not entirely blank, not mistakable for a sequence item marker,
and not mistakable for a typed literal. -/
def plainSafe (s : Chars) : Bool :=
  s.any (fun c => c ≠ ' ') && s.all safeChar &&
  !(s == ['-']) && !(s.take 2 == ['-', ' ']) && !looksLit s

/-- Modelled from the spec: scalar projection of one token, as performed
by the Structural Parser of the missing module dvc/utils/serialize/_yaml.py.
An explicit forced-string tag bypasses type inference entirely; otherwise
quoted strings, word literals, numeric literals and plain strings are
recognised in that order. -/
def parseScalarTok (t : Chars) : PValue :=
  if t.take 6 = "!!str ".data then .str (t.drop 6)
  else if t.head? = some '\'' then
    match unquoteBody t.tail with
    | some s => .str s
    | none => .str t
  else if t = "null".data then .null
  else if t = "~".data then .null
  else if t = "true".data then .bool true
  else if t = "false".data then .bool false
  else if t = "{}".data then .map []
  else if t = "[]".data then .seq []
  else if isIntTok t then .int (parseIntTok t)
  else if isFloatTok t then parseFloatTok t
  else .str t

/-- Canonical decimal numeral of an integer. -/
def intToChars (n : Int) : Chars :=
  if n < 0 then '-' :: natToChars n.natAbs else natToChars n.toNat

/-- Canonical literal of a float scalar. -/
def floatToChars (neg : Bool) (ip : Nat) (frac : List Nat) : Chars :=
  (if neg then ['-'] else []) ++ natToChars ip ++ '.' :: frac.map digitChar

/-- Whether a value is emitted inline (scalars and flow-empty containers). -/
def isInline : PValue → Bool
  | .seq xs => xs.isEmpty
  | .map kvs => kvs.isEmpty
  | _ => true

/-- Modelled from the spec: the token emitted by the Serializer of the
missing module dvc/utils/serialize/_yaml.py for an inline value —
canonical literal forms for null, booleans and numbers, plain or
single-quoted form for strings, flow form for empty containers. -/
def emitScalarTok : PValue → Chars
  | .null => "null".data
  | .bool true => "true".data
  | .bool false => "false".data
  | .int n => intToChars n
  | .float neg ip frac => floatToChars neg ip frac
  | .str s => if plainSafe s then s else quoteStr s
  | .seq _ => "[]".data
  | .map _ => "{}".data

/-! ## Round trip of scalar tokens -/

theorem unquoteBody_escQ (s : Chars) :
    unquoteBody (escQ s ++ ['\'']) = some s := by
  induction s with
  | nil => rfl
  | cons c r ih =>
    obtain ⟨d, ds, hds⟩ : ∃ d ds, escQ r ++ ['\''] = d :: ds := by
      cases escQ r <;> exact ⟨_, _, rfl⟩
    by_cases hq : c = '\''
    · subst hq
      have h2 : escQ ('\'' :: r) ++ ['\''] =
          '\'' :: '\'' :: (escQ r ++ ['\'']) := by simp [escQ]
      have h3 : unquoteBody ('\'' :: '\'' :: d :: ds) =
          (unquoteBody (d :: ds)).map ('\'' :: ·) := by
        simp [unquoteBody]
      rw [h2, hds, h3, ← hds, ih]
      rfl
    · have h2 : escQ (c :: r) ++ ['\''] = c :: d :: ds := by
        simp [escQ, hq, hds]
      have h3 : unquoteBody (c :: d :: ds) =
          (unquoteBody (d :: ds)).map (c :: ·) := by
        simp [unquoteBody, hq]
      rw [h2, h3, ← hds, ih]
      rfl

/-- Tokens whose head is a minus sign or a digit are not tagged, quoted or
word-literal tokens. -/
theorem numHead_not_lit (c : Char) (cs : Chars)
    (h : c = '-' ∨ isDigitChar c = true) :
    (c :: cs : Chars).take 6 ≠ "!!str ".data ∧
    (c :: cs : Chars).head? ≠ some '\'' ∧
    (c :: cs : Chars) ≠ "null".data ∧ (c :: cs : Chars) ≠ "~".data ∧
    (c :: cs : Chars) ≠ "true".data ∧ (c :: cs : Chars) ≠ "false".data ∧
    (c :: cs : Chars) ≠ "{}".data ∧ (c :: cs : Chars) ≠ "[]".data := by
  have hne : ∀ d0 : Char, d0 ≠ '-' → isDigitChar d0 = false → c ≠ d0 := by
    rintro d0 hd1 hd2 rfl
    rcases h with h | h
    · exact hd1 h
    · rw [h] at hd2; cases hd2
  have hhead : ∀ (t : Chars) (d0 : Char), (c :: cs : Chars) = t →
      t.head? = some d0 → c = d0 := by
    rintro t d0 rfl ht
    simpa using ht
  refine ⟨?_, ?_, ?_, ?_, ?_, ?_, ?_, ?_⟩
  · intro heq
    rw [List.take_succ_cons] at heq
    have hc : c = '!' := by
      have h2 := congrArg List.head? heq
      rw [show (("!!str ".data : Chars)).head? = some '!' from rfl] at h2
      simpa using h2
    exact hne '!' (by decide) (by decide) hc
  · intro heq
    simp only [List.head?_cons, Option.some.injEq] at heq
    exact hne '\'' (by decide) (by decide) heq
  · intro heq
    exact hne 'n' (by decide) (by decide) (hhead _ 'n' heq rfl)
  · intro heq
    exact hne '~' (by decide) (by decide) (hhead _ '~' heq rfl)
  · intro heq
    exact hne 't' (by decide) (by decide) (hhead _ 't' heq rfl)
  · intro heq
    exact hne 'f' (by decide) (by decide) (hhead _ 'f' heq rfl)
  · intro heq
    exact hne '{' (by decide) (by decide) (hhead _ '{' heq rfl)
  · intro heq
    exact hne '[' (by decide) (by decide) (hhead _ '[' heq rfl)

/-- Strings made only of safe characters are not tagged or quoted tokens. -/
theorem safe_not_tag_quote {s : Chars} (hsafe : s.all safeChar = true) :
    s.take 6 ≠ "!!str ".data ∧ s.head? ≠ some '\'' := by
  cases s with
  | nil => simp
  | cons c cs =>
    have hc : safeChar c = true := by
      have := List.all_eq_true.mp hsafe c (List.mem_cons_self c cs)
      exact this
    constructor
    · intro heq
      simp only [List.take_succ_cons,
        show ("!!str ".data = '!' :: "!str ".data) from rfl,
        List.cons.injEq] at heq
      rw [heq.1] at hc
      exact absurd hc (by decide)
    · intro heq
      simp only [List.head?_cons, Option.some.injEq] at heq
      rw [heq] at hc
      exact absurd hc (by decide)

theorem stripNeg_of_head_ne {c : Char} {r : Chars} (h : c ≠ '-') :
    stripNeg (c :: r) = (false, c :: r) := by
  simp [stripNeg, h]

theorem stripNeg_neg (r : Chars) : stripNeg ('-' :: r) = (true, r) := by
  simp [stripNeg]

theorem digit_head_ne_neg {c : Char} (h : isDigitChar c = true) : c ≠ '-' := by
  intro heq; rw [heq] at h; exact absurd h (by decide)

theorem splitDot_append {a : Chars} (b : Chars) (h : '.' ∉ a) :
    splitDot (a ++ '.' :: b) = some (a, b) := by
  induction a with
  | nil => simp [splitDot]
  | cons c cs ih =>
    have hc : c ≠ '.' := fun heq => h (heq ▸ List.mem_cons_self c cs)
    simp only [List.cons_append, splitDot, if_neg hc]
    rw [show (cs.append ('.' :: b)) = cs ++ '.' :: b from rfl,
      ih (fun hm => h (List.mem_cons_of_mem c hm))]
    rfl

theorem no_dot_natToChars (n : Nat) : '.' ∉ natToChars n := by
  intro hm
  have := natToChars_all_digits n '.' hm
  exact absurd this (by decide)

/-- An integer literal token is recognised as an integer. -/
theorem isEmpty_false_of_ne_nil {l : Chars} (h : l ≠ []) : l.isEmpty = false := by
  cases l with
  | nil => exact absurd rfl h
  | cons c cs => rfl

theorem isIntTok_intToChars (n : Int) : isIntTok (intToChars n) = true := by
  by_cases hneg : n < 0
  · simp only [intToChars, if_pos hneg, isIntTok, stripNeg_neg]
    have h1 := isEmpty_false_of_ne_nil (natToChars_ne_nil n.natAbs)
    have h2 : (natToChars n.natAbs).all isDigitChar = true :=
      List.all_eq_true.mpr (natToChars_all_digits _)
    simp [h1, h2]
  · simp only [intToChars, if_neg hneg]
    obtain ⟨c, rest, hcr, hdig⟩ := natToChars_head_digit n.toNat
    rw [hcr]
    simp only [isIntTok, stripNeg_of_head_ne (digit_head_ne_neg hdig)]
    have h2 : (natToChars n.toNat).all isDigitChar = true :=
      List.all_eq_true.mpr (natToChars_all_digits _)
    rw [hcr] at h2
    simp [h2]

theorem parseIntTok_intToChars (n : Int) : parseIntTok (intToChars n) = n := by
  by_cases hneg : n < 0
  · simp [intToChars, if_pos hneg, parseIntTok, stripNeg_neg,
      charsToNat_natToChars]
    rw [abs_of_neg hneg]
    omega
  · obtain ⟨c, rest, hcr, hdig⟩ := natToChars_head_digit n.toNat
    have hs : stripNeg (natToChars n.toNat) = (false, natToChars n.toNat) := by
      rw [hcr]
      exact stripNeg_of_head_ne (digit_head_ne_neg hdig)
    simp [intToChars, if_neg hneg, parseIntTok, hs, charsToNat_natToChars]
    omega

/-- The head of an integer literal is a minus sign or a digit. -/
theorem intToChars_head (n : Int) :
    ∃ c cs, intToChars n = c :: cs ∧ (c = '-' ∨ isDigitChar c = true) := by
  by_cases hneg : n < 0
  · exact ⟨'-', natToChars n.natAbs, by simp [intToChars, hneg], Or.inl rfl⟩
  · obtain ⟨c, rest, hcr, hdig⟩ := natToChars_head_digit n.toNat
    exact ⟨c, rest, by simp [intToChars, hneg, hcr], Or.inr hdig⟩

/-- The head of a float literal is a minus sign or a digit. -/
theorem floatToChars_head (neg : Bool) (ip : Nat) (frac : List Nat) :
    ∃ c cs, floatToChars neg ip frac = c :: cs ∧
      (c = '-' ∨ isDigitChar c = true) := by
  obtain ⟨c, rest, hcr, hdig⟩ := natToChars_head_digit ip
  cases neg with
  | true =>
    exact ⟨'-', natToChars ip ++ '.' :: frac.map digitChar,
      by simp [floatToChars], Or.inl rfl⟩
  | false =>
    exact ⟨c, rest ++ '.' :: frac.map digitChar,
      by simp [floatToChars, hcr], Or.inr hdig⟩

/-- The unsigned core of a float literal. -/
theorem stripNeg_floatToChars (neg : Bool) (ip : Nat) (frac : List Nat) :
    stripNeg (floatToChars neg ip frac) =
      (neg, natToChars ip ++ '.' :: frac.map digitChar) := by
  cases neg with
  | true => simp [floatToChars, stripNeg_neg]
  | false =>
    obtain ⟨c, rest, hcr, hdig⟩ := natToChars_head_digit ip
    simp [floatToChars, hcr, stripNeg_of_head_ne (digit_head_ne_neg hdig)]

/-- A float literal token is not an integer literal. -/
theorem isIntTok_floatToChars (neg : Bool) (ip : Nat) (frac : List Nat) :
    isIntTok (floatToChars neg ip frac) = false := by
  simp only [isIntTok, stripNeg_floatToChars]
  have hmem : '.' ∈ natToChars ip ++ '.' :: frac.map digitChar := by
    simp
  simp only [Bool.and_eq_false_iff]
  right
  rw [List.all_eq_false]
  exact ⟨'.', hmem, by decide⟩

theorem isFloatTok_floatToChars {frac : List Nat} (neg : Bool) (ip : Nat)
    (hfr : frac.all (· < 10)) :
    isFloatTok (floatToChars neg ip frac) = true := by
  simp only [isFloatTok, stripNeg_floatToChars,
    splitDot_append _ (no_dot_natToChars ip)]
  have h1 : (natToChars ip).isEmpty = false :=
    isEmpty_false_of_ne_nil (natToChars_ne_nil ip)
  have h2 : (natToChars ip).all isDigitChar = true :=
    List.all_eq_true.mpr (natToChars_all_digits ip)
  have h3 : (frac.map digitChar).all isDigitChar = true := by
    rw [List.all_eq_true]
    intro c hc
    obtain ⟨d, hd, rfl⟩ := List.mem_map.mp hc
    exact isDigitChar_digitChar (by simpa using List.all_eq_true.mp hfr d hd)
  simp [h1, h2, h3]

theorem parseFloatTok_floatToChars {frac : List Nat} (neg : Bool) (ip : Nat)
    (hfr : frac.all (· < 10)) :
    parseFloatTok (floatToChars neg ip frac) = .float neg ip frac := by
  simp only [parseFloatTok, stripNeg_floatToChars,
    splitDot_append _ (no_dot_natToChars ip), charsToNat_natToChars]
  congr 1
  rw [List.map_map]
  have hmem : ∀ d ∈ frac, d < 10 := by
    intro d hd
    simpa using List.all_eq_true.mp hfr d hd
  calc frac.map (charToDigit ∘ digitChar)
      = frac.map id :=
        List.map_congr_left
          (fun d hd => by simp [Function.comp, charToDigit_digitChar (hmem d hd)])
    _ = frac := List.map_id frac

/-- With a numeric head, the scalar parser reaches the numeric branches. -/
theorem parseScalarTok_of_numHead {c : Char} {cs : Chars}
    (h : c = '-' ∨ isDigitChar c = true) :
    parseScalarTok (c :: cs) =
      (if isIntTok (c :: cs) then .int (parseIntTok (c :: cs))
       else if isFloatTok (c :: cs) then parseFloatTok (c :: cs)
       else .str (c :: cs)) := by
  obtain ⟨h1, h2, h3, h4, h5, h6, h7, h8⟩ := numHead_not_lit c cs h
  simp only [parseScalarTok, if_neg h1, if_neg h2, if_neg h3, if_neg h4,
    if_neg h5, if_neg h6, if_neg h7, if_neg h8]

theorem looksLit_components {s : Chars} (h : looksLit s = false) :
    s ≠ "null".data ∧ s ≠ "~".data ∧ s ≠ "true".data ∧ s ≠ "false".data ∧
    s ≠ "{}".data ∧ s ≠ "[]".data ∧ isIntTok s = false ∧ isFloatTok s = false := by
  simp only [looksLit, Bool.or_eq_false_iff, beq_eq_false_iff_ne, ne_eq] at h
  tauto

/-- A plain-safe string parses back to itself. -/
theorem parseScalarTok_plainSafe {s : Chars} (h : plainSafe s = true) :
    parseScalarTok s = .str s := by
  have hcomp : s.all safeChar = true ∧ looksLit s = false := by
    simp only [plainSafe, Bool.and_eq_true, Bool.not_eq_true'] at h
    exact ⟨h.1.1.1.2, h.2⟩
  obtain ⟨htag, hquote⟩ := safe_not_tag_quote hcomp.1
  obtain ⟨h3, h4, h5, h6, h7, h8, h9, h10⟩ := looksLit_components hcomp.2
  simp only [parseScalarTok, if_neg htag, if_neg hquote, if_neg h3, if_neg h4,
    if_neg h5, if_neg h6, if_neg h7, if_neg h8, h9, h10, Bool.false_eq_true,
    if_false]

/-- A quoted string parses back to the original string. -/
theorem parseScalarTok_quoteStr (s : Chars) :
    parseScalarTok (quoteStr s) = .str s := by
  have htag : (quoteStr s).take 6 ≠ "!!str ".data := by
    intro heq
    simp only [quoteStr, List.take_succ_cons,
      show (("!!str ".data : Chars)) = '!' :: "!str ".data from rfl,
      List.cons.injEq] at heq
    exact absurd heq.1 (by decide)
  have hquote : (quoteStr s).head? = some '\'' := rfl
  simp only [parseScalarTok, if_neg htag, hquote, if_pos rfl]
  simp only [quoteStr, List.tail_cons, unquoteBody_escQ]
  simp

/-- Whether the scalar payload of a value is well-formed (float fraction
digits are single decimal digits). -/
def ScalarOk : PValue → Bool
  | .float _ _ frac => frac.all (· < 10)
  | _ => true

/-- The scalar-token round trip: parsing the emitted token of any inline
value returns that value. -/
theorem parse_emit_scalar {v : PValue} (hinl : isInline v = true)
    (hok : ScalarOk v = true) :
    parseScalarTok (emitScalarTok v) = v := by
  cases v with
  | null => decide
  | bool b => cases b <;> decide
  | int n =>
    obtain ⟨c, cs, hcr, hhead⟩ := intToChars_head n
    have h1 := isIntTok_intToChars n
    have h2 := parseIntTok_intToChars n
    rw [emitScalarTok, hcr, parseScalarTok_of_numHead hhead, ← hcr,
      if_pos h1, h2]
  | float neg ip frac =>
    have hfr : frac.all (· < 10) = true := hok
    obtain ⟨c, cs, hcr, hhead⟩ := floatToChars_head neg ip frac
    have h1 := isIntTok_floatToChars neg ip frac
    have h2 := isFloatTok_floatToChars neg ip hfr
    have h3 := parseFloatTok_floatToChars neg ip hfr
    rw [emitScalarTok, hcr, parseScalarTok_of_numHead hhead, ← hcr, h1,
      if_neg (by simp), if_pos h2, h3]
  | str s =>
    by_cases hps : plainSafe s = true
    · rw [emitScalarTok, if_pos hps, parseScalarTok_plainSafe hps]
    · rw [emitScalarTok, if_neg hps, parseScalarTok_quoteStr]
  | seq xs =>
    have hx : xs = [] := by
      simpa [isInline, List.isEmpty_iff] using hinl
    subst hx
    decide
  | map kvs =>
    have hx : kvs = [] := by
      simpa [isInline, List.isEmpty_iff] using hinl
    subst hx
    decide

/-! ## The supported fragment

The round-trip guarantee of the specification quantifies over values built
from the supported scalar, mapping and sequence types.  The predicate below
delimits that fragment in the model: float fractions are digit lists,
strings are single-line, and mapping keys are plain single-line tokens with
no duplicates among siblings. -/

/-- The keys of an association list, in order. -/
def keysOf (kvs : List (Chars × PValue)) : List Chars := kvs.map Prod.fst

/-- No element of the list occurs twice. -/
def noDupIn : List Chars → Bool
  | [] => true
  | k :: ks => !ks.contains k && noDupIn ks

/-- A key must be emittable in plain form and must not begin with a space
(so that it is not mistaken for an indented continuation line). -/
def goodKey (k : Chars) : Bool := plainSafe k && !(k.head? == some ' ')

mutual

/-- Modelled from the spec: the supported value fragment over which the
round-trip identity of the engine is stated. -/
def Supported : PValue → Bool
  | .null => true
  | .bool _ => true
  | .int _ => true
  | .float _ _ frac => frac.all (· < 10)
  | .str s => s.all (· ≠ '\n')
  | .seq xs => SupportedSeq xs
  | .map kvs => noDupIn (keysOf kvs) && SupportedMap kvs

/-- All items of a sequence are supported. -/
def SupportedSeq : List PValue → Bool
  | [] => true
  | x :: xs => Supported x && SupportedSeq xs

/-- All entries of a mapping have good keys and supported values. -/
def SupportedMap : List (Chars × PValue) → Bool
  | [] => true
  | (k, v) :: tl => goodKey k && Supported v && SupportedMap tl

end

theorem ScalarOk_of_Supported {v : PValue} (h : Supported v = true) :
    ScalarOk v = true := by
  cases v <;> simp_all [Supported, ScalarOk]

/-! ## Lines -/

/-- Prefixes every line with two spaces. -/
def indent2 (ls : List Chars) : List Chars := ls.map (fun l => ' ' :: ' ' :: l)

/-- Removes two leading characters from every line. -/
def dedent2 (ls : List Chars) : List Chars := ls.map (fun l => l.drop 2)

theorem dedent2_indent2 (ls : List Chars) : dedent2 (indent2 ls) = ls := by
  simp only [dedent2, indent2, List.map_map]
  have h : ((fun l : Chars => List.drop 2 l) ∘ fun l => ' ' :: ' ' :: l) = id := rfl
  rw [h, List.map_id]

/-- The leading indented lines of a block. -/
def takeIndented : List Chars → List Chars
  | [] => []
  | l :: ls => if l.head? = some ' ' then l :: takeIndented ls else []

/-- The remainder after the leading indented lines. -/
def dropIndented : List Chars → List Chars
  | [] => []
  | l :: ls => if l.head? = some ' ' then dropIndented ls else l :: ls

/-- Whether the first line, if any, does not begin with a space. -/
def firstNonspace : List Chars → Prop
  | [] => True
  | l :: _ => l.head? ≠ some ' '

theorem takeIndented_spec (bs rest : List Chars)
    (hb : ∀ l ∈ bs, l.head? = some ' ') (hr : firstNonspace rest) :
    takeIndented (bs ++ rest) = bs ∧ dropIndented (bs ++ rest) = rest := by
  induction bs with
  | nil =>
    cases rest with
    | nil => exact ⟨rfl, rfl⟩
    | cons l ls =>
      have : l.head? ≠ some ' ' := hr
      simp [takeIndented, dropIndented, this]
  | cons b bs ih =>
    have hb1 : b.head? = some ' ' := hb b (List.mem_cons_self b bs)
    have ih2 := ih (fun l hl => hb l (List.mem_cons_of_mem b hl))
    simp [takeIndented, dropIndented, hb1, ih2.1, ih2.2]

theorem indent2_heads {ls : List Chars} :
    ∀ l ∈ indent2 ls, l.head? = some ' ' := by
  intro l hl
  obtain ⟨l0, _, rfl⟩ := List.mem_map.mp hl
  rfl

theorem takeIndented_length (ls : List Chars) :
    (takeIndented ls).length ≤ ls.length := by
  induction ls with
  | nil => simp [takeIndented]
  | cons l ls ih =>
    simp only [takeIndented]
    by_cases h : l.head? = some ' ' <;> simp [h] <;> omega

theorem dropIndented_length (ls : List Chars) :
    (dropIndented ls).length ≤ ls.length := by
  induction ls with
  | nil => simp [dropIndented]
  | cons l ls ih =>
    simp only [dropIndented]
    by_cases h : l.head? = some ' ' <;> simp [h] <;> omega

/-- Joins lines with newline separators (no trailing newline). -/
def joinLines : List Chars → Chars
  | [] => []
  | [l] => l
  | l :: ls => l ++ '\n' :: joinLines ls

/-- Splits text at newline characters. -/
def splitLines : Chars → List Chars
  | [] => [[]]
  | c :: rest =>
    if c = '\n' then [] :: splitLines rest
    else
      match splitLines rest with
      | [] => [[c]]
      | l :: ls => (c :: l) :: ls

theorem splitLines_ne_nil (t : Chars) : splitLines t ≠ [] := by
  cases t with
  | nil => simp [splitLines]
  | cons c rest =>
    simp only [splitLines]
    by_cases h : c = '\n'
    · simp [h]
    · simp only [if_neg h]
      cases splitLines rest <;> simp

theorem splitLines_no_newline {l : Chars} (h : '\n' ∉ l) :
    splitLines l = [l] := by
  induction l with
  | nil => rfl
  | cons c rest ih =>
    have hc : c ≠ '\n' := fun heq => h (heq ▸ List.mem_cons_self c rest)
    have ihr := ih (fun hm => h (List.mem_cons_of_mem c hm))
    simp [splitLines, hc, ihr]

theorem splitLines_append {l rest : Chars} (h : '\n' ∉ l) :
    splitLines (l ++ '\n' :: rest) = l :: splitLines rest := by
  induction l with
  | nil => simp [splitLines]
  | cons c cs ih =>
    have hc : c ≠ '\n' := fun heq => h (heq ▸ List.mem_cons_self c cs)
    have ihr := ih (fun hm => h (List.mem_cons_of_mem c hm))
    have key : splitLines (c :: (cs ++ '\n' :: rest)) =
        match splitLines (cs ++ '\n' :: rest) with
        | [] => [[c]]
        | l :: ls => (c :: l) :: ls := by
      simp only [splitLines, if_neg hc]
    rw [List.cons_append, key, ihr]

theorem splitLines_joinLines {ls : List Chars} (hne : ls ≠ [])
    (h : ∀ l ∈ ls, '\n' ∉ l) : splitLines (joinLines ls) = ls := by
  induction ls with
  | nil => exact absurd rfl hne
  | cons l ls ih =>
    cases ls with
    | nil =>
      exact splitLines_no_newline (h l (List.mem_cons_self l []))
    | cons l2 ls2 =>
      have h1 : '\n' ∉ l := h l (List.mem_cons_self l (l2 :: ls2))
      have h2 := ih (by simp) (fun x hx => h x (List.mem_cons_of_mem l hx))
      rw [show joinLines (l :: l2 :: ls2) = l ++ '\n' :: joinLines (l2 :: ls2)
        from rfl]
      rw [splitLines_append h1, h2]

/-- Whether a line consists only of spaces. -/
def isBlankLine (l : Chars) : Bool := l.all (· = ' ')

/-- The non-blank lines of a text. -/
def contentLines (t : Chars) : List Chars :=
  (splitLines t).filter (fun l => !isBlankLine l)

/-! ## Serializer -/

mutual

/-- Modelled from the spec: the block-style line emitter of the Serializer
of the missing module dvc/utils/serialize/_yaml.py.  Mappings serialize
their keys in container iteration order; nested containers are emitted as
indented blocks; inline values (scalars and flow-empty containers) stay on
the line of their key or item marker; long scalars are never wrapped. -/
def emitBlock : PValue → List Chars
  | .seq (x :: xs) => emitItems (x :: xs)
  | .map (e :: kvs) => emitEntries (e :: kvs)
  | v => [emitScalarTok v]

/-- Lines of the items of a block sequence. -/
def emitItems : List PValue → List Chars
  | [] => []
  | x :: xs =>
    (if isInline x then ['-' :: ' ' :: emitScalarTok x]
     else ['-'] :: indent2 (emitBlock x)) ++ emitItems xs

/-- Lines of the entries of a block mapping. -/
def emitEntries : List (Chars × PValue) → List Chars
  | [] => []
  | (k, v) :: kvs =>
    (if isInline v then [k ++ ':' :: ' ' :: emitScalarTok v]
     else (k ++ [':']) :: indent2 (emitBlock v)) ++ emitEntries kvs

end

/-- Modelled from the spec: serializeToText / dumps_yaml of the missing
module dvc/utils/serialize/_yaml.py — deterministic structural emission of
a plain value as text. -/
def serializeToText (v : PValue) : Chars := joinLines (emitBlock v)

/-- The serializer entry point named as in the engine. -/
def dumps_yaml (v : PValue) : Chars := serializeToText v

/-! ## Structural parser -/

/-- Whether a line opens a block-sequence item. -/
def startSeqItem (l : Chars) : Bool := l == ['-'] || l.take 2 == ['-', ' ']

/-- Whether a line is a mapping entry (unquoted and containing a colon). -/
def isEntryLine (l : Chars) : Bool := !(l.head? == some '\'') && l.contains ':'

/-- Splits a line at its first colon. -/
def splitColon : Chars → Option (Chars × Chars)
  | [] => none
  | c :: cs =>
    if c = ':' then some ([], cs)
    else (splitColon cs).map (fun p => (c :: p.1, p.2))

/-- Structural parse failure. -/
inductive RawErr where
  | malformed : RawErr
  deriving DecidableEq, Repr

mutual

/-- Modelled from the spec: the line-block grammar of the Structural
Parser of the missing module dvc/utils/serialize/_yaml.py.  The fuel
argument makes the recursion structural; any fuel of at least twice the
number of lines plus two is sufficient.  An empty block parses to the
empty mapping, as the specification requires of empty input. -/
def parseBlockF : Nat → List Chars → Except RawErr PValue
  | 0, _ => .error .malformed
  | _ + 1, [] => .ok (.map [])
  | fuel + 1, l :: rest =>
    if startSeqItem l then
      match parseItemsF fuel (l :: rest) with
      | .ok xs => .ok (.seq xs)
      | .error e => .error e
    else if isEntryLine l then
      match parseEntriesF fuel (l :: rest) with
      | .ok kvs => .ok (.map kvs)
      | .error e => .error e
    else if rest.isEmpty then .ok (parseScalarTok l)
    else .error .malformed

/-- Parses the items of a block sequence. -/
def parseItemsF : Nat → List Chars → Except RawErr (List PValue)
  | 0, _ => .error .malformed
  | _ + 1, [] => .ok []
  | fuel + 1, l :: rest =>
    if l = ['-'] then
      match parseBlockF fuel (dedent2 (takeIndented rest)),
            parseItemsF fuel (dropIndented rest) with
      | .ok v, .ok tl => .ok (v :: tl)
      | .error e, _ => .error e
      | _, .error e => .error e
    else if l.take 2 = ['-', ' '] then
      match parseItemsF fuel rest with
      | .ok tl => .ok (parseScalarTok (l.drop 2) :: tl)
      | .error e => .error e
    else .error .malformed

/-- Parses the entries of a block mapping.  Values may be inline tokens on
the entry line or nested blocks on the following indented lines. -/
def parseEntriesF : Nat → List Chars → Except RawErr (List (Chars × PValue))
  | 0, _ => .error .malformed
  | _ + 1, [] => .ok []
  | fuel + 1, l :: rest =>
    match splitColon l with
    | none => .error .malformed
    | some (k, r) =>
      if r.isEmpty then
        match parseBlockF fuel (dedent2 (takeIndented rest)),
              parseEntriesF fuel (dropIndented rest) with
        | .ok v, .ok tl => .ok ((k, v) :: tl)
        | .error e, _ => .error e
        | _, .error e => .error e
      else if r.head? = some ' ' then
        match parseEntriesF fuel rest with
        | .ok tl => .ok ((k, parseScalarTok r.tail) :: tl)
        | .error e => .error e
      else .error .malformed

end

/-- Raw structural parse of a text: non-blank lines fed to the block
parser with sufficient fuel.  Duplicate keys are not yet rejected here;
that is the separate validation pass below. -/
def parseTextRaw (t : Chars) : Except RawErr PValue :=
  parseBlockF (2 * (contentLines t).length + 2) (contentLines t)

/-! ## Duplicate-key validation -/

/-- The first element of the list that also occurs later in it. -/
def firstDupIn : List Chars → Option Chars
  | [] => none
  | k :: ks => if ks.contains k then some k else firstDupIn ks

mutual

/-- Modelled from the spec: the duplicate-key check of the Structural
Parser of the missing module dvc/utils/serialize/_yaml.py — a mapping with
two entries sharing a key at the same nesting level is a corruption.
Returns an offending key if one exists anywhere in the document. -/
def findDup : PValue → Option Chars
  | .seq xs => findDupSeq xs
  | .map kvs =>
    match firstDupIn (keysOf kvs) with
    | some k => some k
    | none => findDupMap kvs
  | _ => none

/-- Duplicate search across sequence items. -/
def findDupSeq : List PValue → Option Chars
  | [] => none
  | x :: xs =>
    match findDup x with
    | some k => some k
    | none => findDupSeq xs

/-- Duplicate search across mapping values. -/
def findDupMap : List (Chars × PValue) → Option Chars
  | [] => none
  | (_, v) :: kvs =>
    match findDup v with
    | some k => some k
    | none => findDupMap kvs

end

/-! ## Typed errors and the public parse interface -/

/-- EncodingError payload: the source path and the declared encoding. -/
structure EncodingErrorInfo where
  path : Chars
  encoding : String
  deriving DecidableEq, Repr

/-- YAMLFileCorruptedError payload: the source path and the duplicate key. -/
structure CorruptErrInfo where
  path : Chars
  key : Chars
  deriving DecidableEq, Repr

/-- Structural (grammar) error payload: the source path. -/
structure MalformedErrInfo where
  path : Chars
  deriving DecidableEq, Repr

/-- The three terminal error kinds of the engine. -/
inductive YamlError where
  | encoding (e : EncodingErrorInfo)
  | corrupted (e : CorruptErrInfo)
  | malformed (e : MalformedErrInfo)
  deriving DecidableEq, Repr

/-- Modelled from the spec: parse_yaml / parseForRead of the missing
module dvc/utils/serialize/_yaml.py — plain-mode parse of decoded text,
raising YAMLFileCorruptedError on a duplicate mapping key. -/
def parse_yaml (t : Chars) (p : Chars) : Except YamlError PValue :=
  match parseTextRaw t with
  | .error _ => .error (.malformed ⟨p⟩)
  | .ok r =>
    match findDup r with
    | some k => .error (.corrupted ⟨p, k⟩)
    | none => .ok r

/-- Modelled from the spec: parse_yaml_for_update / parseForUpdate of the
missing module dvc/utils/serialize/_yaml.py — the editable-mode parse.
The specification prescribes one parser for both modes, with the plain
mode a metadata-discarding projection; the model carries no formatting
metadata, so the two modes coincide on the value level while both preserve
source order of mapping keys. -/
def parse_yaml_for_update (t : Chars) (p : Chars) : Except YamlError PValue :=
  parse_yaml t p

/-- The keys of a parsed mapping document, in iteration order. -/
def docKeys : PValue → List Chars
  | .map kvs => keysOf kvs
  | _ => []

/-- Decidable equality of results, used to evaluate concrete engine runs. -/
instance {ε α : Type} [DecidableEq ε] [DecidableEq α] : DecidableEq (Except ε α) :=
  fun a b =>
  match a, b with
  | .ok x, .ok y =>
    if h : x = y then isTrue (congrArg Except.ok h)
    else isFalse (fun hc => h (Except.ok.inj hc))
  | .error x, .error y =>
    if h : x = y then isTrue (congrArg Except.error h)
    else isFalse (fun hc => h (Except.error.inj hc))
  | .ok _, .error _ => isFalse (fun hc => Except.noConfusion hc)
  | .error _, .ok _ => isFalse (fun hc => Except.noConfusion hc)

/-! ## Text decoder (utf-8) -/

/-- Whether a byte is a utf-8 continuation byte. -/
def isCont (b : Nat) : Bool := 128 ≤ b && b ≤ 191

mutual

/-- Modelled from the spec: the Text Decoder of the missing module
dvc/utils/serialize/_yaml.py — validates that raw bytes are well-formed
text under the declared encoding (utf-8) and decodes them; on the first
illegal byte sequence it fails with no partial result.  The continuation
of each multi-byte sequence is handled by a helper per sequence length. -/
def decodeUtf8 : Bytes → Option Chars
  | [] => some []
  | b :: rest =>
    if b < 128 then (decodeUtf8 rest).map (Char.ofNat b :: ·)
    else if 194 ≤ b && b ≤ 223 then decodeTail2 b rest
    else if 224 ≤ b && b ≤ 239 then decodeTail3 b rest
    else if 240 ≤ b && b ≤ 244 then decodeTail4 b rest
    else none

/-- Continuation of a two-byte sequence with leading byte b. -/
def decodeTail2 (b : Nat) : Bytes → Option Chars
  | c1 :: rest2 =>
    if isCont c1 then
      (decodeUtf8 rest2).map (Char.ofNat ((b - 192) * 64 + (c1 - 128)) :: ·)
    else none
  | [] => none

/-- Continuation of a three-byte sequence with leading byte b, rejecting
overlong encodings and surrogates. -/
def decodeTail3 (b : Nat) : Bytes → Option Chars
  | c1 :: c2 :: rest2 =>
    if isCont c1 && isCont c2 && (b ≠ 224 || 160 ≤ c1) && (b ≠ 237 || c1 ≤ 159)
    then
      (decodeUtf8 rest2).map
        (Char.ofNat ((b - 224) * 4096 + (c1 - 128) * 64 + (c2 - 128)) :: ·)
    else none
  | _ => none

/-- Continuation of a four-byte sequence with leading byte b, rejecting
overlong encodings and out-of-range code points. -/
def decodeTail4 (b : Nat) : Bytes → Option Chars
  | c1 :: c2 :: c3 :: rest2 =>
    if isCont c1 && isCont c2 && isCont c3 &&
       (b ≠ 240 || 144 ≤ c1) && (b ≠ 244 || c1 ≤ 143) then
      (decodeUtf8 rest2).map
        (Char.ofNat
          ((b - 240) * 262144 + (c1 - 128) * 4096 + (c2 - 128) * 64 +
            (c3 - 128)) :: ·)
    else none
  | _ => none

end

/-- The specification-level grammar of legal utf-8 byte sequences, stated
independently of the decoder: ascii bytes, and two-, three- and four-byte
sequences with the standard leading-byte ranges, continuation bytes, and
the overlong/surrogate exclusions. -/
inductive Utf8Valid : Bytes → Prop
  | nil : Utf8Valid []
  | one {b : Nat} {rest : Bytes} : b < 128 → Utf8Valid rest →
      Utf8Valid (b :: rest)
  | two {b c1 : Nat} {rest : Bytes} : 194 ≤ b → b ≤ 223 → isCont c1 = true →
      Utf8Valid rest → Utf8Valid (b :: c1 :: rest)
  | three {b c1 c2 : Nat} {rest : Bytes} : 224 ≤ b → b ≤ 239 →
      isCont c1 = true → isCont c2 = true →
      (b = 224 → 160 ≤ c1) → (b = 237 → c1 ≤ 159) → Utf8Valid rest →
      Utf8Valid (b :: c1 :: c2 :: rest)
  | four {b c1 c2 c3 : Nat} {rest : Bytes} : 240 ≤ b → b ≤ 244 →
      isCont c1 = true → isCont c2 = true → isCont c3 = true →
      (b = 240 → 144 ≤ c1) → (b = 244 → c1 ≤ 143) → Utf8Valid rest →
      Utf8Valid (b :: c1 :: c2 :: c3 :: rest)

/-- Encodes one character as utf-8 bytes. -/
def encodeChar (c : Char) : Bytes :=
  let n := c.toNat
  if n < 128 then [n]
  else if n < 2048 then [192 + n / 64, 128 + n % 64]
  else if n < 65536 then [224 + n / 4096, 128 + (n / 64) % 64, 128 + n % 64]
  else [240 + n / 262144, 128 + (n / 4096) % 64, 128 + (n / 64) % 64,
    128 + n % 64]

/-- Encodes text as utf-8 bytes. -/
def encodeUtf8 : Chars → Bytes
  | [] => []
  | c :: cs => encodeChar c ++ encodeUtf8 cs

/-- Modelled from the spec: the decode step of load_yaml — bytes are
decoded under the declared encoding (utf-8); an illegal sequence raises
EncodingError carrying the source path and the encoding name. -/
def decode (bs : Bytes) (p : Chars) : Except YamlError Chars :=
  match decodeUtf8 bs with
  | some t => .ok t
  | none => .error (.encoding ⟨p, "utf-8"⟩)

/-- Modelled from the spec: load_yaml / readFromPath of the missing module
dvc/utils/serialize/_yaml.py — decode the file bytes, then parse in plain
mode. -/
def load_yaml (p : Chars) (content : Bytes) : Except YamlError PValue :=
  match decode content p with
  | .error e => .error e
  | .ok t => parse_yaml t p

/-! ## Scoped editing session -/

/-- The state of the file at the session path: its byte content, or none
if the file does not exist. -/
structure FsState where
  file : Option Bytes
  deriving DecidableEq, Repr

/-- An error escaping a session: a typed engine error from decode or
parse, or an exception raised by the mutation block of the caller. -/
inductive SessionErr where
  | yaml (e : YamlError)
  | user (msg : Chars)
  deriving DecidableEq, Repr

/-- Writing replaces the file content wholesale. -/
def writeFile (fs : FsState) (b : Bytes) : FsState := ⟨some b⟩

/-- Modelled from the spec: the entry phase of modify_yaml — read bytes
from the path (a missing or empty file is an empty document), decode, and
parse in editable mode. -/
def sessionLoad (p : Chars) (fs : FsState) : Except YamlError PValue :=
  match fs.file with
  | none => parse_yaml_for_update [] p
  | some bs =>
    match decode bs p with
    | .error e => .error e
    | .ok t => parse_yaml_for_update t p

/-- Modelled from the spec: modify_yaml / withEditSession of the missing
module dvc/utils/serialize/_yaml.py — acquire (decode and parse), run the
mutation block, and on normal exit serialize the mutated document and
write it back, fully replacing prior contents.  Any error from decode,
parse, or the mutation block aborts the session with no write, and the
error propagates.  The function returns the file state after the session
together with its outcome. -/
def modify_yaml (p : Chars) (fs : FsState) (f : PValue → Except Chars PValue) :
    FsState × Except SessionErr PValue :=
  match sessionLoad p fs with
  | .error e => (fs, .error (.yaml e))
  | .ok d =>
    match f d with
    | .error m => (fs, .error (.user m))
    | .ok d2 => (writeFile fs (encodeUtf8 (serializeToText d2)), .ok d2)

/-- Modelled from the spec: dump_yaml / writeToPath — serialize a value
and overwrite the file at the path with its encoded text. -/
def dump_yaml (fs : FsState) (v : PValue) : FsState :=
  writeFile fs (encodeUtf8 (serializeToText v))

/-- Sets a key of a mapping document to a value: an existing key is
updated in place, a new key is appended after existing siblings. -/
def setKey : List (Chars × PValue) → Chars → PValue → List (Chars × PValue)
  | [], k, x => [(k, x)]
  | (k0, v0) :: tl, k, x =>
    if k0 = k then (k, x) :: tl else (k0, v0) :: setKey tl k x

/-- The mapping-like set operation on a document root. -/
def mapSet (v : PValue) (k : Chars) (x : PValue) : PValue :=
  match v with
  | .map kvs => .map (setKey kvs k x)
  | v0 => v0

/-! ## Duplicate keys: specification-level statement -/

/-- A document contains two mapping entries with an identical key at the
same nesting level.  Stated independently of the validation pass. -/
inductive HasDup : PValue → Prop
  | here {kvs : List (Chars × PValue)} :
      ¬ (keysOf kvs).Nodup → HasDup (.map kvs)
  | inMapVal {kvs : List (Chars × PValue)} {k : Chars} {v : PValue} :
      (k, v) ∈ kvs → HasDup v → HasDup (.map kvs)
  | inSeqItem {xs : List PValue} {x : PValue} :
      x ∈ xs → HasDup x → HasDup (.seq xs)

theorem firstDupIn_eq_none_iff (ks : List Chars) :
    firstDupIn ks = none ↔ ks.Nodup := by
  induction ks with
  | nil => simp [firstDupIn]
  | cons k ks ih =>
    simp only [firstDupIn]
    by_cases hc : ks.contains k
    · have hk : k ∈ ks := by
        simpa using hc
      simp [hc, List.nodup_cons, hk]
    · have hk : k ∉ ks := by
        simpa using hc
      simp [hc, List.nodup_cons, hk, ih]

theorem findDupMap_of_mem {kvs : List (Chars × PValue)} {k : Chars}
    {v : PValue} {k0 : Chars} (hmem : (k, v) ∈ kvs)
    (hv : findDup v = some k0) : ∃ k1, findDupMap kvs = some k1 := by
  induction kvs with
  | nil => cases hmem
  | cons e tl ih =>
    obtain ⟨k2, v2⟩ := e
    rcases List.mem_cons.mp hmem with heq | htl
    · obtain ⟨h1, h2⟩ := Prod.mk.injEq .. ▸ heq
      simp only [findDupMap]
      rw [show v2 = v from congrArg Prod.snd heq.symm, hv]
      exact ⟨k0, rfl⟩
    · simp only [findDupMap]
      cases hf : findDup v2 with
      | some k3 => exact ⟨k3, rfl⟩
      | none => exact ih htl

theorem findDupSeq_of_mem {xs : List PValue} {x : PValue} {k0 : Chars}
    (hmem : x ∈ xs) (hx : findDup x = some k0) :
    ∃ k1, findDupSeq xs = some k1 := by
  induction xs with
  | nil => cases hmem
  | cons y tl ih =>
    rcases List.mem_cons.mp hmem with heq | htl
    · subst heq
      simp only [findDupSeq, hx]
      exact ⟨k0, rfl⟩
    · simp only [findDupSeq]
      cases hf : findDup y with
      | some k3 => exact ⟨k3, rfl⟩
      | none => exact ih htl

/-- Unfolding equation of the validation pass at a mapping node. -/
theorem findDup_map_eq (kvs : List (Chars × PValue)) :
    findDup (.map kvs) =
      (match firstDupIn (keysOf kvs) with
       | some k => some k
       | none => findDupMap kvs) := rfl

/-- Unfolding equation of the validation pass at a sequence node. -/
theorem findDup_seq_eq (xs : List PValue) :
    findDup (.seq xs) = findDupSeq xs := rfl

/-- A duplicate key anywhere in the document is found by the validation
pass. -/
theorem findDup_of_hasDup {v : PValue} (h : HasDup v) :
    ∃ k, findDup v = some k := by
  induction h with
  | @here kvs hnd =>
    cases hfd : firstDupIn (keysOf kvs) with
    | none => exact absurd ((firstDupIn_eq_none_iff _).mp hfd) hnd
    | some k => exact ⟨k, by rw [findDup_map_eq, hfd]⟩
  | @inMapVal kvs k v0 hmem _ ih =>
    obtain ⟨k0, hk0⟩ := ih
    cases hfd : firstDupIn (keysOf kvs) with
    | some k1 => exact ⟨k1, by rw [findDup_map_eq, hfd]⟩
    | none =>
      obtain ⟨k1, hk1⟩ := findDupMap_of_mem hmem hk0
      exact ⟨k1, by rw [findDup_map_eq, hfd, hk1]⟩
  | @inSeqItem xs x hmem _ ih =>
    obtain ⟨k0, hk0⟩ := ih
    obtain ⟨k1, hk1⟩ := findDupSeq_of_mem hmem hk0
    exact ⟨k1, by rw [findDup_seq_eq, hk1]⟩

/-! The decoder only accepts byte strings that are legal utf-8 under the
specification-level grammar. -/

mutual

theorem decodeUtf8_ok_valid :
    ∀ (bs : Bytes), (∃ t, decodeUtf8 bs = some t) → Utf8Valid bs
  | [], _ => .nil
  | b :: rest, ⟨t, ht⟩ => by
    simp only [decodeUtf8] at ht
    by_cases h1 : b < 128
    · rw [if_pos h1] at ht
      cases hrec : decodeUtf8 rest with
      | none => rw [hrec] at ht; cases ht
      | some t0 => exact .one h1 (decodeUtf8_ok_valid rest ⟨t0, hrec⟩)
    · rw [if_neg h1] at ht
      by_cases h2 : 194 ≤ b ∧ b ≤ 223
      · rw [if_pos (by simp [h2.1, h2.2])] at ht
        exact decodeTail2_ok_valid b rest h2.1 h2.2 ⟨t, ht⟩
      · rw [if_neg (by intro hx; simp at hx; exact h2 hx)] at ht
        by_cases h3 : 224 ≤ b ∧ b ≤ 239
        · rw [if_pos (by simp [h3.1, h3.2])] at ht
          exact decodeTail3_ok_valid b rest h3.1 h3.2 ⟨t, ht⟩
        · rw [if_neg (by intro hx; simp at hx; exact h3 hx)] at ht
          by_cases h4 : 240 ≤ b ∧ b ≤ 244
          · rw [if_pos (by simp [h4.1, h4.2])] at ht
            exact decodeTail4_ok_valid b rest h4.1 h4.2 ⟨t, ht⟩
          · rw [if_neg (by intro hx; simp at hx; exact h4 hx)] at ht
            cases ht

theorem decodeTail2_ok_valid :
    ∀ (b : Nat) (rest : Bytes), 194 ≤ b → b ≤ 223 →
      (∃ t, decodeTail2 b rest = some t) → Utf8Valid (b :: rest)
  | b, [], _, _, ⟨t, ht⟩ => by
    simp only [decodeTail2] at ht
    cases ht
  | b, c1 :: rest2, hb1, hb2, ⟨t, ht⟩ => by
    simp only [decodeTail2] at ht
    by_cases hc : isCont c1 = true
    · rw [if_pos hc] at ht
      cases hrec : decodeUtf8 rest2 with
      | none => rw [hrec] at ht; cases ht
      | some t0 => exact .two hb1 hb2 hc (decodeUtf8_ok_valid rest2 ⟨t0, hrec⟩)
    · rw [if_neg hc] at ht; cases ht

theorem decodeTail3_ok_valid :
    ∀ (b : Nat) (rest : Bytes), 224 ≤ b → b ≤ 239 →
      (∃ t, decodeTail3 b rest = some t) → Utf8Valid (b :: rest)
  | b, [], _, _, ⟨t, ht⟩ => by
    simp only [decodeTail3] at ht
    cases ht
  | b, [c1], _, _, ⟨t, ht⟩ => by
    simp only [decodeTail3] at ht
    cases ht
  | b, c1 :: c2 :: rest2, hb1, hb2, ⟨t, ht⟩ => by
    simp only [decodeTail3] at ht
    by_cases hcond : (isCont c1 && isCont c2 &&
        (decide (b ≠ 224) || decide (160 ≤ c1)) &&
        (decide (b ≠ 237) || decide (c1 ≤ 159))) = true
    · rw [if_pos hcond] at ht
      simp only [Bool.and_eq_true, Bool.or_eq_true, decide_eq_true_eq] at hcond
      obtain ⟨⟨⟨ha, hb⟩, hcx⟩, hd⟩ := hcond
      cases hrec : decodeUtf8 rest2 with
      | none => rw [hrec] at ht; cases ht
      | some t0 =>
        exact .three hb1 hb2 ha hb
          (fun hbe => hcx.elim (fun hne => absurd hbe hne) id)
          (fun hbe => hd.elim (fun hne => absurd hbe hne) id)
          (decodeUtf8_ok_valid rest2 ⟨t0, hrec⟩)
    · rw [if_neg hcond] at ht; cases ht

theorem decodeTail4_ok_valid :
    ∀ (b : Nat) (rest : Bytes), 240 ≤ b → b ≤ 244 →
      (∃ t, decodeTail4 b rest = some t) → Utf8Valid (b :: rest)
  | b, [], _, _, ⟨t, ht⟩ => by
    simp only [decodeTail4] at ht
    cases ht
  | b, [c1], _, _, ⟨t, ht⟩ => by
    simp only [decodeTail4] at ht
    cases ht
  | b, [c1, c2], _, _, ⟨t, ht⟩ => by
    simp only [decodeTail4] at ht
    cases ht
  | b, c1 :: c2 :: c3 :: rest2, hb1, hb2, ⟨t, ht⟩ => by
    simp only [decodeTail4] at ht
    by_cases hcond : (isCont c1 && isCont c2 && isCont c3 &&
        (decide (b ≠ 240) || decide (144 ≤ c1)) &&
        (decide (b ≠ 244) || decide (c1 ≤ 143))) = true
    · rw [if_pos hcond] at ht
      simp only [Bool.and_eq_true, Bool.or_eq_true, decide_eq_true_eq] at hcond
      obtain ⟨⟨⟨⟨ha, hb⟩, hcx⟩, hd⟩, he⟩ := hcond
      cases hrec : decodeUtf8 rest2 with
      | none => rw [hrec] at ht; cases ht
      | some t0 =>
        exact .four hb1 hb2 ha hb hcx
          (fun hbe => hd.elim (fun hne => absurd hbe hne) id)
          (fun hbe => he.elim (fun hne => absurd hbe hne) id)
          (decodeUtf8_ok_valid rest2 ⟨t0, hrec⟩)
    · rw [if_neg hcond] at ht; cases ht

end

/-- A session whose load fails leaves the file alone and reports the
typed error. -/
theorem modify_yaml_load_error {p : Chars} {fs : FsState}
    {f : PValue → Except Chars PValue} {e0 : YamlError}
    (h : sessionLoad p fs = .error e0) :
    modify_yaml p fs f = (fs, .error (.yaml e0)) := by
  simp only [modify_yaml, h]

/-- A session whose mutation block fails leaves the file alone and
propagates the exception. -/
theorem modify_yaml_mut_error {p : Chars} {fs : FsState}
    {f : PValue → Except Chars PValue} {d : PValue} {m : Chars}
    (h1 : sessionLoad p fs = .ok d) (h2 : f d = .error m) :
    modify_yaml p fs f = (fs, .error (.user m)) := by
  simp only [modify_yaml, h1, h2]

/-- A session whose mutation block succeeds writes the serialized mutated
document back. -/
theorem modify_yaml_ok {p : Chars} {fs : FsState}
    {f : PValue → Except Chars PValue} {d d2 : PValue}
    (h1 : sessionLoad p fs = .ok d) (h2 : f d = .ok d2) :
    modify_yaml p fs f =
      (⟨some (encodeUtf8 (serializeToText d2))⟩, .ok d2) := by
  simp only [modify_yaml, h1, h2, writeFile]

/-! ## Line-shape facts used by the round-trip proof -/

theorem startSeqItem_eq_false_iff (l : Chars) :
    startSeqItem l = false ↔ l ≠ ['-'] ∧ l.take 2 ≠ ['-', ' '] := by
  simp [startSeqItem]

theorem contains_eq_false_iff (l : Chars) (c : Char) :
    l.contains c = false ↔ c ∉ l := by
  simp [List.contains_iff_exists_mem_beq]

theorem plainSafe_parts {s : Chars} (h : plainSafe s = true) :
    s.any (fun c => c ≠ ' ') = true ∧ s.all safeChar = true ∧
    s ≠ ['-'] ∧ s.take 2 ≠ ['-', ' '] ∧ looksLit s = false := by
  simp only [plainSafe, Bool.and_eq_true, Bool.not_eq_true',
    beq_eq_false_iff_ne, ne_eq] at h
  exact ⟨h.1.1.1.1, h.1.1.1.2, h.1.1.2, h.1.2, h.2⟩

theorem goodKey_parts {k : Chars} (h : goodKey k = true) :
    plainSafe k = true ∧ k.head? ≠ some ' ' := by
  simp only [goodKey, Bool.and_eq_true, Bool.not_eq_true',
    beq_eq_false_iff_ne, ne_eq] at h
  exact ⟨h.1, h.2⟩

theorem plainSafe_ne_nil {s : Chars} (h : plainSafe s = true) : s ≠ [] := by
  obtain ⟨h1, -⟩ := plainSafe_parts h
  intro heq
  subst heq
  cases h1

theorem safe_no_colon {s : Chars} (h : s.all safeChar = true) : ':' ∉ s := by
  intro hm
  exact absurd (List.all_eq_true.mp h ':' hm) (by decide)

theorem safe_no_newline {s : Chars} (h : s.all safeChar = true) : '\n' ∉ s := by
  intro hm
  exact absurd (List.all_eq_true.mp h '\n' hm) (by decide)

theorem splitColon_append {k : Chars} (r : Chars) (h : ':' ∉ k) :
    splitColon (k ++ ':' :: r) = some (k, r) := by
  induction k with
  | nil => simp [splitColon]
  | cons c cs ih =>
    have hc : c ≠ ':' := fun heq => h (heq ▸ List.mem_cons_self c cs)
    simp only [List.cons_append, splitColon, if_neg hc]
    rw [show (cs.append (':' :: r)) = cs ++ ':' :: r from rfl,
      ih (fun hm => h (List.mem_cons_of_mem c hm))]
    rfl

/-- Membership in the quote-escaped string comes from the quote character
or the original string. -/
theorem mem_escQ {c : Char} {s : Chars} (h : c ∈ escQ s) :
    c = '\'' ∨ c ∈ s := by
  induction s with
  | nil => cases h
  | cons d ds ih =>
    by_cases hq : d = '\''
    · subst hq
      rw [show escQ ('\'' :: ds) = '\'' :: '\'' :: escQ ds from by
        simp [escQ]] at h
      rcases List.mem_cons.mp h with h1 | h1
      · exact Or.inl h1
      · rcases List.mem_cons.mp h1 with h2 | h2
        · exact Or.inl h2
        · rcases ih h2 with h3 | h3
          · exact Or.inl h3
          · exact Or.inr (List.mem_cons_of_mem _ h3)
    · rw [show escQ (d :: ds) = d :: escQ ds from by simp [escQ, hq]] at h
      rcases List.mem_cons.mp h with h1 | h1
      · exact Or.inr (h1 ▸ List.mem_cons_self d ds)
      · rcases ih h1 with h3 | h3
        · exact Or.inl h3
        · exact Or.inr (List.mem_cons_of_mem _ h3)

/-- Characters of an integer literal are digits or the minus sign. -/
theorem intToChars_chars {c : Char} {n : Int} (h : c ∈ intToChars n) :
    isDigitChar c = true ∨ c = '-' := by
  by_cases hneg : n < 0
  · rw [intToChars, if_pos hneg] at h
    rcases List.mem_cons.mp h with h1 | h1
    · exact Or.inr h1
    · exact Or.inl (natToChars_all_digits _ c h1)
  · rw [intToChars, if_neg hneg] at h
    exact Or.inl (natToChars_all_digits _ c h)

/-- Characters of a float literal with digit fractions are digits, the
minus sign or the dot. -/
theorem floatToChars_chars {c : Char} {neg : Bool} {ip : Nat}
    {frac : List Nat} (hfr : frac.all (· < 10) = true)
    (h : c ∈ floatToChars neg ip frac) :
    isDigitChar c = true ∨ c = '-' ∨ c = '.' := by
  simp only [floatToChars] at h
  rcases List.mem_append.mp h with h1 | h1
  · rcases List.mem_append.mp h1 with h2 | h2
    · cases neg with
      | true =>
        rw [if_pos rfl] at h2
        rcases List.mem_singleton.mp h2 with rfl
        exact Or.inr (Or.inl rfl)
      | false =>
        rw [if_neg (by simp)] at h2
        cases h2
    · exact Or.inl (natToChars_all_digits _ c h2)
  · rcases List.mem_cons.mp h1 with h3 | h3
    · exact Or.inr (Or.inr h3)
    · obtain ⟨d, hd, rfl⟩ := List.mem_map.mp h3
      exact Or.inl (isDigitChar_digitChar
        (by simpa using List.all_eq_true.mp hfr d hd))

/-- The emitted token of an inline value is never empty. -/
theorem emitScalarTok_ne_nil {v : PValue} (hinl : isInline v = true) :
    emitScalarTok v ≠ [] := by
  cases v with
  | null => decide
  | bool b => cases b <;> decide
  | int n =>
    obtain ⟨c, cs, hcr, -⟩ := intToChars_head n
    simp [emitScalarTok, hcr]
  | float neg ip frac =>
    obtain ⟨c, cs, hcr, -⟩ := floatToChars_head neg ip frac
    simp [emitScalarTok, hcr]
  | str s =>
    by_cases hps : plainSafe s = true
    · simpa [emitScalarTok, hps] using plainSafe_ne_nil hps
    · simp [emitScalarTok, hps, quoteStr]
  | seq xs => simp [emitScalarTok]
  | map kvs => simp [emitScalarTok]

theorem head_ne_of_digit {c : Char} (h : isDigitChar c = true) : c ≠ ' ' := by
  intro heq
  rw [heq] at h
  exact absurd h (by decide)

theorem cons_ne_single_dash {c : Char} (cs : Chars) (h : c ≠ '-') :
    (c :: cs : Chars) ≠ ['-'] := by
  intro heq
  have h2 := congrArg List.head? heq
  simp only [List.head?_cons, Option.some.injEq] at h2
  exact h h2

theorem take2_ne_of_head {c : Char} (cs : Chars) (h : c ≠ '-') :
    (c :: cs : Chars).take 2 ≠ ['-', ' '] := by
  intro heq
  rw [List.take_succ_cons] at heq
  have h2 := congrArg List.head? heq
  simp only [List.head?_cons, Option.some.injEq] at h2
  exact h h2

theorem startSeqItem_of_head_ne {c : Char} (cs : Chars) (h : c ≠ '-') :
    startSeqItem (c :: cs) = false := by
  rw [startSeqItem_eq_false_iff]
  exact ⟨cons_ne_single_dash cs h, take2_ne_of_head cs h⟩

theorem startSeqItem_dash_cons {c2 : Char} (cs : Chars) (h : c2 ≠ ' ') :
    startSeqItem ('-' :: c2 :: cs) = false := by
  rw [startSeqItem_eq_false_iff]
  refine ⟨by simp, ?_⟩
  intro heq
  rw [List.take_succ_cons, List.take_succ_cons] at heq
  simp only [List.cons.injEq] at heq
  exact h heq.2.1

/-- The emitted token of a supported inline value never opens a sequence
item. -/
theorem startSeqItem_emitScalarTok {v : PValue} (hsup : Supported v = true) :
    startSeqItem (emitScalarTok v) = false := by
  cases v with
  | null => decide
  | bool b => cases b <;> decide
  | int n =>
    by_cases hneg : n < 0
    · obtain ⟨c, rest, hcr, hdig⟩ := natToChars_head_digit n.natAbs
      rw [emitScalarTok, intToChars, if_pos hneg, hcr]
      exact startSeqItem_dash_cons _ (head_ne_of_digit hdig)
    · obtain ⟨c, rest, hcr, hdig⟩ := natToChars_head_digit n.toNat
      rw [emitScalarTok, intToChars, if_neg hneg, hcr]
      exact startSeqItem_of_head_ne _ (digit_head_ne_neg hdig)
  | float neg ip frac =>
    obtain ⟨c, rest, hcr, hdig⟩ := natToChars_head_digit ip
    cases neg with
    | true =>
      rw [emitScalarTok,
        show floatToChars true ip frac =
          '-' :: (natToChars ip ++ '.' :: frac.map digitChar) from by
            simp [floatToChars],
        hcr, List.cons_append]
      exact startSeqItem_dash_cons _ (head_ne_of_digit hdig)
    | false =>
      rw [emitScalarTok,
        show floatToChars false ip frac =
          natToChars ip ++ '.' :: frac.map digitChar from by
            simp [floatToChars],
        hcr, List.cons_append]
      exact startSeqItem_of_head_ne _ (digit_head_ne_neg hdig)
  | str s =>
    by_cases hps : plainSafe s = true
    · rw [emitScalarTok, if_pos hps, startSeqItem_eq_false_iff]
      obtain ⟨-, -, h3, h4, -⟩ := plainSafe_parts hps
      exact ⟨h3, h4⟩
    · rw [emitScalarTok, if_neg hps, quoteStr]
      exact startSeqItem_of_head_ne _ (by decide)
  | seq xs =>
    rw [show emitScalarTok (.seq xs) = "[]".data from rfl]
    decide
  | map kvs =>
    rw [show emitScalarTok (.map kvs) = "{}".data from rfl]
    decide

theorem isEntryLine_of_no_colon {l : Chars} (h : ':' ∉ l) :
    isEntryLine l = false := by
  have hc : l.contains ':' = false := (contains_eq_false_iff l ':').mpr h
  rw [isEntryLine, hc, Bool.and_false]

theorem isEntryLine_of_quote {l : Chars} (h : l.head? = some '\'') :
    isEntryLine l = false := by
  simp [isEntryLine, h]

/-- The emitted token of a supported inline value is never a mapping
entry line. -/
theorem isEntryLine_emitScalarTok {v : PValue} (hsup : Supported v = true) :
    isEntryLine (emitScalarTok v) = false := by
  cases v with
  | null => decide
  | bool b => cases b <;> decide
  | int n =>
    refine isEntryLine_of_no_colon ?_
    intro hm
    rcases intToChars_chars hm with h1 | h1
    · exact absurd h1 (by decide)
    · exact absurd h1 (by decide)
  | float neg ip frac =>
    have hfr : frac.all (· < 10) = true := hsup
    refine isEntryLine_of_no_colon ?_
    intro hm
    rcases floatToChars_chars hfr hm with h1 | h1 | h1
    · exact absurd h1 (by decide)
    · exact absurd h1 (by decide)
    · exact absurd h1 (by decide)
  | str s =>
    by_cases hps : plainSafe s = true
    · rw [emitScalarTok, if_pos hps]
      exact isEntryLine_of_no_colon
        (safe_no_colon (plainSafe_parts hps).2.1)
    · rw [emitScalarTok, if_neg hps]
      exact isEntryLine_of_quote rfl
  | seq xs =>
    rw [show emitScalarTok (.seq xs) = "[]".data from rfl]
    decide
  | map kvs =>
    rw [show emitScalarTok (.map kvs) = "{}".data from rfl]
    decide

/-- The emitted token of a supported inline value contains no newline. -/
theorem emitScalarTok_no_newline {v : PValue} (hsup : Supported v = true) :
    '\n' ∉ emitScalarTok v := by
  cases v with
  | null => decide
  | bool b => cases b <;> decide
  | int n =>
    intro hm
    rcases intToChars_chars hm with h1 | h1
    · exact absurd h1 (by decide)
    · exact absurd h1 (by decide)
  | float neg ip frac =>
    have hfr : frac.all (· < 10) = true := hsup
    intro hm
    rcases floatToChars_chars hfr hm with h1 | h1 | h1
    · exact absurd h1 (by decide)
    · exact absurd h1 (by decide)
    · exact absurd h1 (by decide)
  | str s =>
    have hnl : s.all (· ≠ '\n') = true := hsup
    by_cases hps : plainSafe s = true
    · rw [emitScalarTok, if_pos hps]
      exact safe_no_newline (plainSafe_parts hps).2.1
    · rw [emitScalarTok, if_neg hps, quoteStr]
      intro hm
      rcases List.mem_cons.mp hm with h1 | h1
      · exact absurd h1.symm (by decide)
      · rcases List.mem_append.mp h1 with h2 | h2
        · rcases mem_escQ h2 with h3 | h3
          · exact absurd h3.symm (by decide)
          · have := List.all_eq_true.mp hnl '\n' h3
            simp at this
        · rcases List.mem_singleton.mp h2 with h3
          exact absurd h3.symm (by decide)
  | seq xs =>
    rw [show emitScalarTok (.seq xs) = "[]".data from rfl]
    decide
  | map kvs =>
    rw [show emitScalarTok (.map kvs) = "{}".data from rfl]
    decide

theorem isBlankLine_false_of_mem {l : Chars} {c : Char} (hm : c ∈ l)
    (h : c ≠ ' ') : isBlankLine l = false := by
  rw [isBlankLine, List.all_eq_false]
  exact ⟨c, hm, by simp [h]⟩

/-- The emitted token of a supported inline value is not blank. -/
theorem emitScalarTok_nonblank {v : PValue} (hsup : Supported v = true) :
    isBlankLine (emitScalarTok v) = false := by
  cases v with
  | null => decide
  | bool b => cases b <;> decide
  | int n =>
    obtain ⟨c, cs, hcr, hhead⟩ := intToChars_head n
    rw [emitScalarTok, hcr]
    refine isBlankLine_false_of_mem (List.mem_cons_self c cs) ?_
    rcases hhead with h1 | h1
    · rw [h1]; decide
    · exact head_ne_of_digit h1
  | float neg ip frac =>
    obtain ⟨c, cs, hcr, hhead⟩ := floatToChars_head neg ip frac
    rw [emitScalarTok, hcr]
    refine isBlankLine_false_of_mem (List.mem_cons_self c cs) ?_
    rcases hhead with h1 | h1
    · rw [h1]; decide
    · exact head_ne_of_digit h1
  | str s =>
    by_cases hps : plainSafe s = true
    · rw [emitScalarTok, if_pos hps]
      obtain ⟨h1, -⟩ := plainSafe_parts hps
      obtain ⟨c, hm, hc⟩ := List.any_eq_true.mp h1
      exact isBlankLine_false_of_mem hm (by simpa using hc)
    · rw [emitScalarTok, if_neg hps, quoteStr]
      exact isBlankLine_false_of_mem (List.mem_cons_self _ _) (by decide)
  | seq xs =>
    rw [show emitScalarTok (.seq xs) = "[]".data from rfl]
    decide
  | map kvs =>
    rw [show emitScalarTok (.map kvs) = "{}".data from rfl]
    decide

theorem bool_and_split {a b : Bool} (h : (a && b) = true) :
    a = true ∧ b = true := by
  constructor
  · exact (Bool.and_elim_left (by exact h) : _)
  · exact (Bool.and_elim_right (by exact h) : _)

/-- An entry line never opens a sequence item. -/
theorem startSeqItem_entry {k : Chars} (r : Chars) (hk : goodKey k = true) :
    startSeqItem (k ++ ':' :: r) = false := by
  obtain ⟨hps, -⟩ := goodKey_parts hk
  obtain ⟨-, -, -, h4, -⟩ := plainSafe_parts hps
  have hne := plainSafe_ne_nil hps
  rw [startSeqItem_eq_false_iff]
  constructor
  · intro heq
    cases k with
    | nil => exact hne rfl
    | cons c cs =>
      rw [List.cons_append] at heq
      simp only [List.cons.injEq] at heq
      exact absurd heq.2 (by simp)
  · intro heq
    cases k with
    | nil => exact hne rfl
    | cons c cs =>
      cases cs with
      | nil => simp at heq
      | cons c2 cs2 =>
        rw [List.cons_append, List.cons_append, List.take_succ_cons,
          List.take_succ_cons] at heq
        refine h4 ?_
        rw [List.take_succ_cons, List.take_succ_cons]
        simpa using heq

/-- An entry line is recognised as a mapping entry. -/
theorem isEntryLine_entry {k : Chars} (r : Chars) (hk : goodKey k = true) :
    isEntryLine (k ++ ':' :: r) = true := by
  obtain ⟨hps, -⟩ := goodKey_parts hk
  obtain ⟨-, hsafe, -⟩ := plainSafe_parts hps
  have hne := plainSafe_ne_nil hps
  have hcontains : (k ++ ':' :: r).contains ':' = true := by
    rw [show ∀ l : Chars, l.contains ':' = l.elem ':' from fun _ => rfl]
    exact List.elem_eq_true_of_mem (by simp)
  have hhead : ((k ++ ':' :: r).head? == some '\'') = false := by
    rw [beq_eq_false_iff_ne]
    cases k with
    | nil => exact absurd rfl hne
    | cons c cs =>
      simp only [List.cons_append, List.head?_cons, ne_eq, Option.some.injEq]
      intro heq
      have := List.all_eq_true.mp hsafe c (List.mem_cons_self c cs)
      rw [heq] at this
      exact absurd this (by decide)
  rw [isEntryLine, hcontains, hhead]
  rfl

/-- An entry line does not start with a space. -/
theorem entry_head_nonspace {k : Chars} (r : Chars) (hk : goodKey k = true) :
    (k ++ ':' :: r).head? ≠ some ' ' := by
  obtain ⟨hps, hsp⟩ := goodKey_parts hk
  have hne := plainSafe_ne_nil hps
  cases k with
  | nil => exact absurd rfl hne
  | cons c cs =>
    simpa using hsp

/-- A good line: free of newlines and not blank. -/
def GoodLine (l : Chars) : Prop := '\n' ∉ l ∧ isBlankLine l = false

theorem goodLine_indent {l : Chars} (h : GoodLine l) :
    GoodLine (' ' :: ' ' :: l) := by
  obtain ⟨h1, h2⟩ := h
  constructor
  · intro hm
    rcases List.mem_cons.mp hm with h3 | h3
    · exact absurd h3 (by decide)
    · rcases List.mem_cons.mp h3 with h4 | h4
      · exact absurd h4 (by decide)
      · exact h1 h4
  · rw [show isBlankLine (' ' :: ' ' :: l) = isBlankLine l from by
      simp [isBlankLine]]
    exact h2

/-- The first line of emitted mapping entries does not start with a
space. -/
theorem emitEntries_firstNonspace {kvs : List (Chars × PValue)}
    (h : SupportedMap kvs = true) : firstNonspace (emitEntries kvs) := by
  cases kvs with
  | nil => trivial
  | cons e tl =>
    obtain ⟨k, v⟩ := e
    have hk : goodKey k = true := by
      simp only [SupportedMap] at h
      exact (bool_and_split (bool_and_split h).1).1
    by_cases hinl : isInline v = true
    · rw [show emitEntries ((k, v) :: tl) =
          (k ++ ':' :: ' ' :: emitScalarTok v) :: emitEntries tl from by
        simp [emitEntries, hinl]]
      exact entry_head_nonspace _ hk
    · rw [show emitEntries ((k, v) :: tl) =
          (k ++ [':']) :: (indent2 (emitBlock v) ++ emitEntries tl) from by
        simp [emitEntries, hinl]]
      exact entry_head_nonspace [] hk

/-- The first line of emitted sequence items does not start with a
space. -/
theorem emitItems_firstNonspace (xs : List PValue) :
    firstNonspace (emitItems xs) := by
  cases xs with
  | nil => trivial
  | cons x tl =>
    by_cases hinl : isInline x = true
    · rw [show emitItems (x :: tl) =
          ('-' :: ' ' :: emitScalarTok x) :: emitItems tl from by
        simp [emitItems, hinl]]
      simp [firstNonspace]
    · rw [show emitItems (x :: tl) =
          ['-'] :: (indent2 (emitBlock x) ++ emitItems tl) from by
        simp [emitItems, hinl]]
      simp [firstNonspace]

mutual

/-- Every emitted line of a supported value is newline-free and not
blank. -/
theorem emitBlock_goodLines : ∀ (v : PValue), Supported v = true →
    ∀ l ∈ emitBlock v, GoodLine l
  | .null, h, l, hl => by
    rcases List.mem_singleton.mp hl with rfl
    exact ⟨emitScalarTok_no_newline h, emitScalarTok_nonblank h⟩
  | .bool b, h, l, hl => by
    rcases List.mem_singleton.mp hl with rfl
    exact ⟨emitScalarTok_no_newline h, emitScalarTok_nonblank h⟩
  | .int n, h, l, hl => by
    rcases List.mem_singleton.mp hl with rfl
    exact ⟨emitScalarTok_no_newline h, emitScalarTok_nonblank h⟩
  | .float neg ip frac, h, l, hl => by
    rcases List.mem_singleton.mp hl with rfl
    exact ⟨emitScalarTok_no_newline h, emitScalarTok_nonblank h⟩
  | .str s, h, l, hl => by
    rcases List.mem_singleton.mp hl with rfl
    exact ⟨emitScalarTok_no_newline h, emitScalarTok_nonblank h⟩
  | .seq [], h, l, hl => by
    rcases List.mem_singleton.mp hl with rfl
    exact ⟨emitScalarTok_no_newline h, emitScalarTok_nonblank h⟩
  | .map [], h, l, hl => by
    rcases List.mem_singleton.mp hl with rfl
    exact ⟨emitScalarTok_no_newline h, emitScalarTok_nonblank h⟩
  | .seq (x :: xs), h, l, hl => emitItems_goodLines (x :: xs) h l hl
  | .map (e :: kvs), h, l, hl =>
    emitEntries_goodLines (e :: kvs)
      (by
        simp only [Supported] at h
        exact (bool_and_split h).2) l hl

/-- Every emitted item line of a supported sequence is good. -/
theorem emitItems_goodLines : ∀ (xs : List PValue), SupportedSeq xs = true →
    ∀ l ∈ emitItems xs, GoodLine l
  | [], _, l, hl => absurd hl (by simp [emitItems])
  | x :: xs, h, l, hl => by
    simp only [SupportedSeq] at h
    have hparts := bool_and_split h
    by_cases hinl : isInline x = true
    · rw [show emitItems (x :: xs) =
          ('-' :: ' ' :: emitScalarTok x) :: emitItems xs from by
        simp [emitItems, hinl]] at hl
      rcases List.mem_cons.mp hl with rfl | h2
      · constructor
        · intro hm
          rcases List.mem_cons.mp hm with h3 | h3
          · exact absurd h3 (by decide)
          · rcases List.mem_cons.mp h3 with h4 | h4
            · exact absurd h4 (by decide)
            · exact emitScalarTok_no_newline hparts.1 h4
        · exact isBlankLine_false_of_mem (List.mem_cons_self _ _) (by decide)
      · exact emitItems_goodLines xs hparts.2 l h2
    · rw [show emitItems (x :: xs) =
          ['-'] :: (indent2 (emitBlock x) ++ emitItems xs) from by
        simp [emitItems, hinl]] at hl
      rcases List.mem_cons.mp hl with rfl | h2
      · exact ⟨by decide, by decide⟩
      · rcases List.mem_append.mp h2 with h3 | h3
        · obtain ⟨l0, hl0, rfl⟩ := List.mem_map.mp h3
          exact goodLine_indent (emitBlock_goodLines x hparts.1 l0 hl0)
        · exact emitItems_goodLines xs hparts.2 l h3

/-- Every emitted entry line of a supported mapping is good. -/
theorem emitEntries_goodLines :
    ∀ (kvs : List (Chars × PValue)), SupportedMap kvs = true →
      ∀ l ∈ emitEntries kvs, GoodLine l
  | [], _, l, hl => absurd hl (by simp [emitEntries])
  | (k, v) :: kvs, h, l, hl => by
    simp only [SupportedMap] at h
    have hparts := bool_and_split h
    have hkv := bool_and_split hparts.1
    obtain ⟨hps, -⟩ := goodKey_parts hkv.1
    obtain ⟨-, hsafe, -⟩ := plainSafe_parts hps
    by_cases hinl : isInline v = true
    · rw [show emitEntries ((k, v) :: kvs) =
          (k ++ ':' :: ' ' :: emitScalarTok v) :: emitEntries kvs from by
        simp [emitEntries, hinl]] at hl
      rcases List.mem_cons.mp hl with rfl | h2
      · constructor
        · intro hm
          rcases List.mem_append.mp hm with h3 | h3
          · exact safe_no_newline hsafe h3
          · rcases List.mem_cons.mp h3 with h4 | h4
            · exact absurd h4 (by decide)
            · rcases List.mem_cons.mp h4 with h5 | h5
              · exact absurd h5 (by decide)
              · exact emitScalarTok_no_newline hkv.2 h5
        · exact isBlankLine_false_of_mem (c := ':') (by simp) (by decide)
      · exact emitEntries_goodLines kvs hparts.2 l h2
    · rw [show emitEntries ((k, v) :: kvs) =
          (k ++ [':']) :: (indent2 (emitBlock v) ++ emitEntries kvs) from by
        simp [emitEntries, hinl]] at hl
      rcases List.mem_cons.mp hl with rfl | h2
      · constructor
        · intro hm
          rcases List.mem_append.mp hm with h3 | h3
          · exact safe_no_newline hsafe h3
          · rcases List.mem_singleton.mp h3 with h4
            exact absurd h4 (by decide)
        · exact isBlankLine_false_of_mem (c := ':') (by simp) (by decide)
      · rcases List.mem_append.mp h2 with h3 | h3
        · obtain ⟨l0, hl0, rfl⟩ := List.mem_map.mp h3
          exact goodLine_indent (emitBlock_goodLines v hkv.2 l0 hl0)
        · exact emitEntries_goodLines kvs hparts.2 l h3

end

/-- Emitted blocks are never empty. -/
theorem emitBlock_ne_nil (v : PValue) : emitBlock v ≠ [] := by
  cases v with
  | seq xs =>
    cases xs with
    | nil => simp [emitBlock]
    | cons x tl =>
      rw [show emitBlock (.seq (x :: tl)) = emitItems (x :: tl) from rfl]
      by_cases hinl : isInline x = true <;> simp [emitItems, hinl]
  | map kvs =>
    cases kvs with
    | nil => simp [emitBlock]
    | cons e tl =>
      obtain ⟨k, v0⟩ := e
      rw [show emitBlock (.map ((k, v0) :: tl)) =
        emitEntries ((k, v0) :: tl) from rfl]
      by_cases hinl : isInline v0 = true <;> simp [emitEntries, hinl]
  | null => simp [emitBlock]
  | bool b => simp [emitBlock]
  | int n => simp [emitBlock]
  | float neg ip frac => simp [emitBlock]
  | str s => simp [emitBlock]

theorem noDupIn_iff (ks : List Chars) : noDupIn ks = true ↔ ks.Nodup := by
  induction ks with
  | nil => simp [noDupIn]
  | cons k ks ih =>
    simp only [noDupIn, Bool.and_eq_true, Bool.not_eq_true']
    by_cases hc : ks.contains k
    · have hk : k ∈ ks := by simpa using hc
      simp [hc, List.nodup_cons, hk]
    · have hk : k ∉ ks := by simpa using hc
      simp [hc, List.nodup_cons, hk, ih]

mutual

/-- The duplicate-key validation pass accepts every supported value. -/
theorem findDup_of_supported : ∀ (v : PValue), Supported v = true →
    findDup v = none
  | .null, _ => rfl
  | .bool b, _ => rfl
  | .int n, _ => rfl
  | .float neg ip frac, _ => rfl
  | .str s, _ => rfl
  | .seq xs, h => findDupSeq_of_supported xs h
  | .map kvs, h => by
    simp only [Supported] at h
    have hparts := bool_and_split h
    rw [findDup_map_eq,
      (firstDupIn_eq_none_iff _).mpr ((noDupIn_iff _).mp hparts.1)]
    exact findDupMap_of_supported kvs hparts.2

/-- The validation pass accepts every supported sequence. -/
theorem findDupSeq_of_supported : ∀ (xs : List PValue),
    SupportedSeq xs = true → findDupSeq xs = none
  | [], _ => rfl
  | x :: xs, h => by
    simp only [SupportedSeq] at h
    have hparts := bool_and_split h
    rw [show findDupSeq (x :: xs) =
        (match findDup x with
         | some k => some k
         | none => findDupSeq xs) from rfl,
      findDup_of_supported x hparts.1]
    exact findDupSeq_of_supported xs hparts.2

/-- The validation pass accepts every supported mapping. -/
theorem findDupMap_of_supported : ∀ (kvs : List (Chars × PValue)),
    SupportedMap kvs = true → findDupMap kvs = none
  | [], _ => rfl
  | (k, v) :: kvs, h => by
    simp only [SupportedMap] at h
    have hparts := bool_and_split h
    have hkv := bool_and_split hparts.1
    rw [show findDupMap ((k, v) :: kvs) =
        (match findDup v with
         | some k0 => some k0
         | none => findDupMap kvs) from rfl,
      findDup_of_supported v hkv.2]
    exact findDupMap_of_supported kvs hparts.2

end

/-- One inline token forms a complete block parsing back to its value. -/
theorem parseBlockF_single_tok {v : PValue} (hsup : Supported v = true)
    (hinl : isInline v = true) :
    ∀ fuel : Nat, 4 ≤ fuel → parseBlockF fuel [emitScalarTok v] = .ok v := by
  intro fuel hfuel
  obtain ⟨f, rfl⟩ : ∃ f, fuel = f + 1 := ⟨fuel - 1, by omega⟩
  have h1 := startSeqItem_emitScalarTok hsup
  have h2 := isEntryLine_emitScalarTok hsup
  simp only [parseBlockF, h1, h2, Bool.false_eq_true, if_false,
    List.isEmpty_nil, if_true]
  rw [parse_emit_scalar hinl (ScalarOk_of_Supported hsup)]

mutual

/-- Parsing the emitted block of a supported value returns the value. -/
theorem parseBlockF_emit : ∀ (v : PValue), Supported v = true →
    ∀ fuel : Nat, 2 * (emitBlock v).length + 2 ≤ fuel →
      parseBlockF fuel (emitBlock v) = .ok v
  | .null, h, fuel, hfuel => by
    rw [show emitBlock .null = [emitScalarTok .null] from by
      simp [emitBlock]] at hfuel ⊢
    exact parseBlockF_single_tok h rfl fuel (by simpa using hfuel)
  | .bool b, h, fuel, hfuel => by
    rw [show emitBlock (.bool b) = [emitScalarTok (.bool b)] from by
      simp [emitBlock]] at hfuel ⊢
    exact parseBlockF_single_tok h rfl fuel (by simpa using hfuel)
  | .int n, h, fuel, hfuel => by
    rw [show emitBlock (.int n) = [emitScalarTok (.int n)] from by
      simp [emitBlock]] at hfuel ⊢
    exact parseBlockF_single_tok h rfl fuel (by simpa using hfuel)
  | .float neg ip frac, h, fuel, hfuel => by
    rw [show emitBlock (.float neg ip frac) =
        [emitScalarTok (.float neg ip frac)] from by
      simp [emitBlock]] at hfuel ⊢
    exact parseBlockF_single_tok h rfl fuel (by simpa using hfuel)
  | .str s, h, fuel, hfuel => by
    rw [show emitBlock (.str s) = [emitScalarTok (.str s)] from by
      simp [emitBlock]] at hfuel ⊢
    exact parseBlockF_single_tok h rfl fuel (by simpa using hfuel)
  | .seq [], h, fuel, hfuel => by
    rw [show emitBlock (.seq []) = [emitScalarTok (.seq [])] from by
      simp [emitBlock]] at hfuel ⊢
    exact parseBlockF_single_tok h rfl fuel (by simpa using hfuel)
  | .map [], h, fuel, hfuel => by
    rw [show emitBlock (.map []) = [emitScalarTok (.map [])] from by
      simp [emitBlock]] at hfuel ⊢
    exact parseBlockF_single_tok h rfl fuel (by simpa using hfuel)
  | .seq (x :: xs), h, fuel, hfuel => by
    simp only [Supported] at h
    rw [show emitBlock (.seq (x :: xs)) = emitItems (x :: xs) from by
      simp [emitBlock]] at hfuel ⊢
    obtain ⟨l, rest, hlr, hstart⟩ : ∃ l rest,
        emitItems (x :: xs) = l :: rest ∧ startSeqItem l = true := by
      by_cases hinl : isInline x = true
      · exact ⟨'-' :: ' ' :: emitScalarTok x, emitItems xs,
          by simp [emitItems, hinl], rfl⟩
      · exact ⟨['-'], indent2 (emitBlock x) ++ emitItems xs,
          by simp [emitItems, hinl], rfl⟩
    rw [hlr] at hfuel ⊢
    obtain ⟨f, rfl⟩ : ∃ f, fuel = f + 1 := ⟨fuel - 1, by omega⟩
    simp only [parseBlockF, hstart, if_true]
    rw [← hlr, parseItemsF_emit (x :: xs) h f (by
      rw [hlr]
      omega)]
  | .map (e :: kvs), h, fuel, hfuel => by
    obtain ⟨k, v0⟩ := e
    simp only [Supported] at h
    have hsm : SupportedMap ((k, v0) :: kvs) = true := (bool_and_split h).2
    have hsm2 := hsm
    simp only [SupportedMap] at hsm2
    have hk : goodKey k = true := (bool_and_split (bool_and_split hsm2).1).1
    rw [show emitBlock (.map ((k, v0) :: kvs)) =
        emitEntries ((k, v0) :: kvs) from by simp [emitBlock]] at hfuel ⊢
    obtain ⟨r2, rest, hlr⟩ : ∃ r2 rest,
        emitEntries ((k, v0) :: kvs) = (k ++ ':' :: r2) :: rest := by
      by_cases hinl : isInline v0 = true
      · exact ⟨' ' :: emitScalarTok v0, emitEntries kvs,
          by simp [emitEntries, hinl]⟩
      · exact ⟨[], indent2 (emitBlock v0) ++ emitEntries kvs,
          by simp [emitEntries, hinl]⟩
    rw [hlr] at hfuel ⊢
    obtain ⟨f, rfl⟩ : ∃ f, fuel = f + 1 := ⟨fuel - 1, by omega⟩
    simp only [parseBlockF, startSeqItem_entry r2 hk,
      isEntryLine_entry r2 hk, Bool.false_eq_true, if_false, if_true]
    rw [← hlr, parseEntriesF_emit ((k, v0) :: kvs) hsm f (by
      rw [hlr]
      omega)]

/-- Parsing the emitted item lines of a supported sequence returns the
items. -/
theorem parseItemsF_emit : ∀ (xs : List PValue), SupportedSeq xs = true →
    ∀ fuel : Nat, 2 * (emitItems xs).length + 1 ≤ fuel →
      parseItemsF fuel (emitItems xs) = .ok xs
  | [], _, fuel, hfuel => by
    obtain ⟨f, rfl⟩ : ∃ f, fuel = f + 1 := ⟨fuel - 1, by omega⟩
    rw [show emitItems [] = ([] : List Chars) from by simp [emitItems]]
    simp [parseItemsF]
  | x :: xs, h, fuel, hfuel => by
    simp only [SupportedSeq] at h
    have hparts := bool_and_split h
    by_cases hinl : isInline x = true
    · rw [show emitItems (x :: xs) =
          ('-' :: ' ' :: emitScalarTok x) :: emitItems xs from by
        simp [emitItems, hinl]] at hfuel ⊢
      obtain ⟨f, rfl⟩ : ∃ f, fuel = f + 1 := ⟨fuel - 1, by omega⟩
      have hne : ('-' :: ' ' :: emitScalarTok x : Chars) ≠ ['-'] := by simp
      simp only [parseItemsF, if_neg hne, List.take_succ_cons,
        List.take_zero, if_pos rfl]
      rw [parseItemsF_emit xs hparts.2 f (by
        simp only [List.length_cons] at hfuel
        omega)]
      rw [show (('-' :: ' ' :: emitScalarTok x : Chars)).drop 2 =
        emitScalarTok x from rfl]
      rw [parse_emit_scalar hinl (ScalarOk_of_Supported hparts.1)]
      simp
    · rw [show emitItems (x :: xs) =
          ['-'] :: (indent2 (emitBlock x) ++ emitItems xs) from by
        simp [emitItems, hinl]] at hfuel ⊢
      obtain ⟨f, rfl⟩ : ∃ f, fuel = f + 1 := ⟨fuel - 1, by omega⟩
      simp only [parseItemsF, if_pos rfl]
      have hspec := takeIndented_spec (indent2 (emitBlock x))
        (emitItems xs) indent2_heads (emitItems_firstNonspace xs)
      rw [hspec.1, hspec.2, dedent2_indent2]
      have hlen : (['-'] :: (indent2 (emitBlock x) ++ emitItems xs)).length =
          1 + (emitBlock x).length + (emitItems xs).length := by
        simp only [List.length_cons, List.length_append, indent2,
          List.length_map]
        omega
      rw [hlen] at hfuel
      rw [parseBlockF_emit x hparts.1 f (by omega),
        parseItemsF_emit xs hparts.2 f (by omega)]
      simp

/-- Parsing the emitted entry lines of a supported mapping returns the
entries. -/
theorem parseEntriesF_emit : ∀ (kvs : List (Chars × PValue)),
    SupportedMap kvs = true →
    ∀ fuel : Nat, 2 * (emitEntries kvs).length + 1 ≤ fuel →
      parseEntriesF fuel (emitEntries kvs) = .ok kvs
  | [], _, fuel, hfuel => by
    obtain ⟨f, rfl⟩ : ∃ f, fuel = f + 1 := ⟨fuel - 1, by omega⟩
    rw [show emitEntries [] = ([] : List Chars) from by simp [emitEntries]]
    simp [parseEntriesF]
  | (k, v) :: kvs, h, fuel, hfuel => by
    simp only [SupportedMap] at h
    have hparts := bool_and_split h
    have hkv := bool_and_split hparts.1
    obtain ⟨hps, -⟩ := goodKey_parts hkv.1
    obtain ⟨-, hsafe, -⟩ := plainSafe_parts hps
    have hnc : ':' ∉ k := safe_no_colon hsafe
    by_cases hinl : isInline v = true
    · rw [show emitEntries ((k, v) :: kvs) =
          (k ++ ':' :: ' ' :: emitScalarTok v) :: emitEntries kvs from by
        simp [emitEntries, hinl]] at hfuel ⊢
      obtain ⟨f, rfl⟩ : ∃ f, fuel = f + 1 := ⟨fuel - 1, by omega⟩
      simp only [parseEntriesF, splitColon_append _ hnc]
      have hemp : ((' ' :: emitScalarTok v : Chars)).isEmpty = false := rfl
      rw [hemp]
      simp only [Bool.false_eq_true, if_false, List.head?_cons, if_pos rfl]
      rw [parseEntriesF_emit kvs hparts.2 f (by
        simp only [List.length_cons] at hfuel
        omega)]
      rw [show ((' ' :: emitScalarTok v : Chars)).tail = emitScalarTok v
        from rfl]
      rw [parse_emit_scalar hinl (ScalarOk_of_Supported hkv.2)]
      simp
    · rw [show emitEntries ((k, v) :: kvs) =
          (k ++ [':']) :: (indent2 (emitBlock v) ++ emitEntries kvs) from by
        simp [emitEntries, hinl]] at hfuel ⊢
      obtain ⟨f, rfl⟩ : ∃ f, fuel = f + 1 := ⟨fuel - 1, by omega⟩
      simp only [parseEntriesF,
        show (k ++ [':'] : Chars) = k ++ ':' :: [] from rfl,
        splitColon_append _ hnc, List.isEmpty_nil, if_true]
      have hspec := takeIndented_spec (indent2 (emitBlock v))
        (emitEntries kvs) indent2_heads
        (emitEntries_firstNonspace hparts.2)
      rw [hspec.1, hspec.2, dedent2_indent2]
      have hlen : ((k ++ [':']) ::
          (indent2 (emitBlock v) ++ emitEntries kvs)).length =
          1 + (emitBlock v).length + (emitEntries kvs).length := by
        simp only [List.length_cons, List.length_append, indent2,
          List.length_map]
        omega
      rw [hlen] at hfuel
      rw [parseBlockF_emit v hkv.2 f (by omega),
        parseEntriesF_emit kvs hparts.2 f (by omega)]

end

/-! ## The claims -/

/-- C1: for every input text containing two mapping entries with an
identical key at the same nesting level — a structurally parseable text
whose raw document has a duplicate key — both the plain-read parse
(parse_yaml / parseForRead) and the editable parse (parse_yaml_for_update /
parseForUpdate) raise CorruptedDocumentError (YAMLFileCorruptedError)
naming the path and an offending key, rather than silently keeping one of
the values. -/
theorem claim_C1 (t p : Chars) (r : PValue)
    (hraw : parseTextRaw t = .ok r) (hdup : HasDup r) :
    ∃ k, parse_yaml t p = .error (.corrupted ⟨p, k⟩) ∧
      parse_yaml_for_update t p = .error (.corrupted ⟨p, k⟩) := by
  obtain ⟨k, hk⟩ := findDup_of_hasDup hdup
  refine ⟨k, ?_, ?_⟩ <;>
    simp [parse_yaml, parse_yaml_for_update, hraw, hk]

theorem claim_C1_witness :
    parseTextRaw "key: value\nkey: another_value".data =
      .ok (.map [("key".data, .str "value".data),
        ("key".data, .str "another_value".data)]) ∧
    (∃ k, parse_yaml "key: value\nkey: another_value".data "mypath".data =
        .error (.corrupted ⟨"mypath".data, k⟩) ∧
      parse_yaml_for_update "key: value\nkey: another_value".data
          "mypath".data =
        .error (.corrupted ⟨"mypath".data, k⟩)) :=
  ⟨by decide,
   claim_C1 "key: value\nkey: another_value".data "mypath".data
     (.map [("key".data, .str "value".data),
       ("key".data, .str "another_value".data)])
     (by decide) (.here (by decide))⟩

/-- C2: for every scoped editing session (modify_yaml / withEditSession),
if any error occurs — during decode, parse (including a duplicate-key
corruption), or in the mutation block of the caller — the session performs
no write: the error propagates and the file state is unchanged. -/
theorem claim_C2 (p : Chars) (fs : FsState) (f : PValue → Except Chars PValue)
    (e : SessionErr) (h : (modify_yaml p fs f).2 = .error e) :
    (modify_yaml p fs f).1 = fs := by
  rcases hload : sessionLoad p fs with e2 | d
  · rw [modify_yaml_load_error hload]
  · rcases hf : f d with m | d2
    · rw [modify_yaml_mut_error hload hf]
    · rw [modify_yaml_ok hload hf] at h
      simp at h

theorem claim_C2_witness :
    (modify_yaml "p".data
        ⟨some (encodeUtf8 "key: value\nkey: another_value".data)⟩
        (fun d => .ok (mapSet d "new".data (.str "test".data)))).2 =
      .error (.yaml (.corrupted ⟨"p".data, "key".data⟩)) ∧
    (modify_yaml "p".data
        ⟨some (encodeUtf8 "key: value\nkey: another_value".data)⟩
        (fun d => .ok (mapSet d "new".data (.str "test".data)))).1 =
      ⟨some (encodeUtf8 "key: value\nkey: another_value".data)⟩ :=
  ⟨by decide,
   claim_C2 "p".data ⟨some (encodeUtf8 "key: value\nkey: another_value".data)⟩
     (fun d => .ok (mapSet d "new".data (.str "test".data)))
     (.yaml (.corrupted ⟨"p".data, "key".data⟩)) (by decide)⟩

/-- C3: for every scoped editing session whose mutation block exits
normally, the session serializes the possibly mutated document and writes
it back to the path, fully replacing prior contents. -/
theorem claim_C3 (p : Chars) (fs : FsState) (f : PValue → Except Chars PValue)
    (d d2 : PValue) (hload : sessionLoad p fs = .ok d) (hf : f d = .ok d2) :
    modify_yaml p fs f =
      (⟨some (encodeUtf8 (serializeToText d2))⟩, .ok d2) :=
  modify_yaml_ok hload hf

theorem claim_C3_witness :
    sessionLoad "p".data
        (dump_yaml ⟨none⟩ (.map [("initial".data, .str "data".data)])) =
      .ok (.map [("initial".data, .str "data".data)]) ∧
    modify_yaml "p".data
        (dump_yaml ⟨none⟩ (.map [("initial".data, .str "data".data)]))
        (fun d => .ok (mapSet d "modified".data (.str "new_value".data))) =
      (⟨some (encodeUtf8 (serializeToText
          (.map [("initial".data, .str "data".data),
            ("modified".data, .str "new_value".data)])))⟩,
        .ok (.map [("initial".data, .str "data".data),
          ("modified".data, .str "new_value".data)])) ∧
    load_yaml "p".data (encodeUtf8 (serializeToText
        (.map [("initial".data, .str "data".data),
          ("modified".data, .str "new_value".data)]))) =
      .ok (.map [("initial".data, .str "data".data),
        ("modified".data, .str "new_value".data)]) :=
  ⟨by decide,
   claim_C3 "p".data
     (dump_yaml ⟨none⟩ (.map [("initial".data, .str "data".data)]))
     (fun d => .ok (mapSet d "modified".data (.str "new_value".data)))
     (.map [("initial".data, .str "data".data)])
     (.map [("initial".data, .str "data".data),
       ("modified".data, .str "new_value".data)])
     (by decide) (by decide),
   by decide⟩

/-- C5: for every byte input that is not legal under the declared encoding
(utf-8), loading raises EncodingError carrying the source path and the
name of the declared encoding, and no partial decoded value is returned. -/
theorem claim_C5 (p : Chars) (bs : Bytes) (h : ¬ Utf8Valid bs) :
    load_yaml p bs = .error (.encoding ⟨p, "utf-8"⟩) := by
  cases hd : decodeUtf8 bs with
  | some t => exact absurd (decodeUtf8_ok_valid bs ⟨t, hd⟩) h
  | none => simp [load_yaml, decode, hd]

theorem claim_C5_witness :
    ¬ Utf8Valid (128 :: encodeUtf8 "some: stuff".data) ∧
    load_yaml "invalid_utf8.yaml".data
        (128 :: encodeUtf8 "some: stuff".data) =
      .error (.encoding ⟨"invalid_utf8.yaml".data, "utf-8"⟩) := by
  have hnv : ¬ Utf8Valid (128 :: encodeUtf8 "some: stuff".data) := by
    intro h
    cases h <;> omega
  exact ⟨hnv, claim_C5 _ _ hnv⟩

/-- C6: empty input is valid, not an error, in every access mode: the
plain parse of empty text is the empty mapping, the editable parse of
empty text is an empty mutable document, and an editing session opened on
an empty or non-existent file starts from an empty document to which
entries can be added and committed. -/
theorem claim_C6 :
    parse_yaml [] "p".data = .ok (.map []) ∧
    parse_yaml_for_update [] "p".data = .ok (.map []) ∧
    modify_yaml "p".data ⟨some []⟩
        (fun d => .ok (mapSet d "new_key".data (.str "new_value".data))) =
      (⟨some (encodeUtf8 (serializeToText
          (.map [("new_key".data, .str "new_value".data)])))⟩,
        .ok (.map [("new_key".data, .str "new_value".data)])) ∧
    modify_yaml "p".data ⟨none⟩
        (fun d => .ok (mapSet d "new_key".data (.str "new_value".data))) =
      (⟨some (encodeUtf8 (serializeToText
          (.map [("new_key".data, .str "new_value".data)])))⟩,
        .ok (.map [("new_key".data, .str "new_value".data)])) :=
  ⟨by decide, by decide, by decide, by decide⟩

/-- C7: the editable parse preserves source order of keys, not lexical
order: parsing the three-entry text with keys b, a, c in that order yields
a mapping whose key iteration order is exactly b, a, c. -/
theorem claim_C7 :
    parse_yaml_for_update "b: 2\na: 1\nc: 3\n".data "dummy".data =
      .ok (.map [("b".data, .int 2), ("a".data, .int 1),
        ("c".data, .int 3)]) ∧
    (match parse_yaml_for_update "b: 2\na: 1\nc: 3\n".data "dummy".data with
     | .ok d => docKeys d
     | .error _ => []) = ["b".data, "a".data, "c".data] :=
  ⟨by decide, by decide⟩

/-- C8: a scalar carrying an explicit forced-string tag uses the tagged
type unconditionally instead of the inferred type: any tagged token parses
to the string after the tag, and in particular the document with value
token tagged over the digits 123 parses to the string 123, while the same
document without the tag parses to the integer 123. -/
theorem claim_C8 :
    (∀ t : Chars,
      parseScalarTok ('!' :: '!' :: 's' :: 't' :: 'r' :: ' ' :: t) =
        .str t) ∧
    parse_yaml "key: !!str 123".data "dummy".data =
      .ok (.map [("key".data, .str "123".data)]) ∧
    parse_yaml "key: 123".data "dummy".data =
      .ok (.map [("key".data, .int 123)]) :=
  ⟨fun t => rfl, by decide, by decide⟩

/-- C9: the serializer emits every plain scalar string on a single
physical line regardless of width: serializing a one-entry mapping whose
value is a plain-safe string produces exactly the line of the key followed
by the whole string, with no newline anywhere in the output. -/
theorem claim_C9 (s : Chars) (h : plainSafe s = true) :
    serializeToText (.map [("text".data, .str s)]) = "text: ".data ++ s ∧
    '\n' ∉ serializeToText (.map [("text".data, .str s)]) := by
  have hsafe : s.all safeChar = true := by
    simp only [plainSafe, Bool.and_eq_true] at h
    exact h.1.1.1.2
  have hemit : serializeToText (.map [("text".data, .str s)]) =
      "text: ".data ++ s := by
    show joinLines (emitBlock (.map [("text".data, .str s)])) =
      "text: ".data ++ s
    rw [show emitBlock (.map [("text".data, .str s)]) =
        emitEntries [("text".data, .str s)] from rfl]
    rw [show emitEntries [("text".data, .str s)] =
        (if isInline (.str s) then
          ["text".data ++ ':' :: ' ' :: emitScalarTok (.str s)]
         else ("text".data ++ [':']) :: indent2 (emitBlock (.str s))) ++
          emitEntries [] from rfl]
    simp only [isInline, if_true, emitScalarTok, if_pos h, emitEntries,
      List.append_nil]
    rfl
  refine ⟨hemit, ?_⟩
  rw [hemit]
  intro hm
  rcases List.mem_append.mp hm with h1 | h2
  · exact absurd h1 (by decide)
  · have := List.all_eq_true.mp hsafe '\n' h2
    exact absurd this (by decide)

set_option maxRecDepth 100000 in
theorem claim_C9_witness :
    plainSafe (List.replicate 500 'a') = true ∧
    serializeToText (.map [("text".data, .str (List.replicate 500 'a'))]) =
      "text: ".data ++ List.replicate 500 'a' :=
  ⟨by decide, (claim_C9 (List.replicate 500 'a') (by decide)).1⟩

/-- C10: parsing the one-token document null in plain mode returns the
null value, which is distinct from the result of parsing the empty string:
null input yields the null scalar while empty input yields the empty
mapping, so the two are not conflated at the public interface. -/
theorem claim_C10 :
    parse_yaml "null".data "p".data = .ok .null ∧
    parse_yaml [] "p".data = .ok (.map []) ∧
    PValue.null ≠ PValue.map [] :=
  ⟨by decide, by decide, by decide⟩

/-- C4: for every plain value built from the supported scalar, mapping and
sequence types (containers are insertion-ordered association lists),
parsing the serialized text back in plain mode returns the value:
parseForRead of serializeToText is the identity on the supported
fragment. -/
theorem claim_C4 (v : PValue) (p : Chars) (h : Supported v = true) :
    parse_yaml (serializeToText v) p = .ok v := by
  have hlines : contentLines (serializeToText v) = emitBlock v := by
    rw [serializeToText, contentLines,
      splitLines_joinLines (emitBlock_ne_nil v)
        (fun l hl => (emitBlock_goodLines v h l hl).1)]
    refine List.filter_eq_self.mpr ?_
    intro l hl
    simp [(emitBlock_goodLines v h l hl).2]
  have hraw : parseTextRaw (serializeToText v) = .ok v := by
    rw [parseTextRaw, hlines]
    exact parseBlockF_emit v h _ (by omega)
  simp only [parse_yaml, hraw, findDup_of_supported v h]

theorem claim_C4_witness :
    Supported (PValue.map [("bool_true".data, .bool true),
      ("bool_false".data, .bool false), ("none".data, .null),
      ("int".data, .int 42), ("float".data, .float false 3 [1, 4]),
      ("list".data, .seq [.int 1, .str "two".data,
        .map [("nested".data, .str "value".data)]])]) = true ∧
    parse_yaml (serializeToText (PValue.map [("bool_true".data, .bool true),
      ("bool_false".data, .bool false), ("none".data, .null),
      ("int".data, .int 42), ("float".data, .float false 3 [1, 4]),
      ("list".data, .seq [.int 1, .str "two".data,
        .map [("nested".data, .str "value".data)]])])) "p".data =
      .ok (PValue.map [("bool_true".data, .bool true),
        ("bool_false".data, .bool false), ("none".data, .null),
        ("int".data, .int 42), ("float".data, .float false 3 [1, 4]),
        ("list".data, .seq [.int 1, .str "two".data,
          .map [("nested".data, .str "value".data)]])]) :=
  ⟨by decide,
   claim_C4 (PValue.map [("bool_true".data, .bool true),
     ("bool_false".data, .bool false), ("none".data, .null),
     ("int".data, .int 42), ("float".data, .float false 3 [1, 4]),
     ("list".data, .seq [.int 1, .str "two".data,
       .map [("nested".data, .str "value".data)]])]) "p".data (by decide)⟩

end DvcYaml
